import Mathlib

/-!
Verification development for the `website-translator` repository
(`src/server/index.js` and the unnamed sibling server file `src/unnamed/part_000`).

The JavaScript source is shallowly embedded:

* strings are Lean `String`s, with the JS string primitives
  (`includes`, `startsWith`, `endsWith`, one-shot `replace` with a string
  pattern) re-implemented over `List Char`;
* cheerio documents are a DOM-like tree `DNode` (text nodes, elements with an
  attribute list, and `raw` blobs standing for inner HTML that was set from a
  string, as `$el.html(s)` does);
* WHATWG `new URL(href, base)` is modelled by `resolveUrl` over a `UrlT`
  record with `protocol` / `hostname` / `pathname` / `search` components
  (ports and fragments are dropped, scheme/host case-normalisation is
  omitted, and `http:`/`https:` URLs without an authority are rejected);
* `axios` fetches and the sqlite statements are oracles passed as function
  arguments; each HTTP handler returns the list of upstream URLs it fetched
  together with an `HResp` (status and body);
* the crawl loop of `POST /api/map-website` is a fuel-indexed recursion whose
  state is the insertion-ordered frontier set, the visited set and the found
  pages, exactly mirroring the JS `Set` operations.
-/

namespace WT

/-! ## JS string primitives over `List Char` -/

/-- Tests whether `pat` occurs at the very start of `l` (prefix test). -/
def matchesAt (pat : List Char) : List Char → Bool
  | [] => pat.isEmpty
  | c :: cs =>
    match pat with
    | [] => true
    | p :: ps => p == c && matchesAt ps cs

/-- JS `String.prototype.includes` on character lists. -/
def hasSubL (pat : List Char) : List Char → Bool
  | [] => matchesAt pat []
  | c :: cs => matchesAt pat (c :: cs) || hasSubL pat cs

/-- JS `String.prototype.replace` with a *string* pattern: replaces only the
first occurrence, and an absent pattern leaves the string unchanged (the JS
empty-pattern behaviour, insertion at the start, is also reproduced). -/
def replaceFirstL (pat repl : List Char) : List Char → List Char
  | [] => if matchesAt pat [] then repl else []
  | c :: cs =>
    if matchesAt pat (c :: cs) then repl ++ (c :: cs).drop pat.length
    else c :: replaceFirstL pat repl cs

/-- JS `s.includes(pat)`. -/
def hasSubS (s pat : String) : Bool := hasSubL pat.data s.data

/-- JS `s.startsWith(pat)`. -/
def startsWithS (s pat : String) : Bool := matchesAt pat.data s.data

/-- JS `s.endsWith(pat)`. -/
def endsWithS (s pat : String) : Bool := matchesAt pat.data.reverse s.data.reverse

/-- JS `s.replace(pat, repl)` (string pattern, first occurrence only). -/
def jsReplaceFirst (s pat repl : String) : String :=
  String.mk (replaceFirstL pat.data repl.data s.data)

/-- Whitespace for the purposes of JS `String.prototype.trim`. -/
def isWS (c : Char) : Bool := c = ' ' ∨ c = '\t' ∨ c = '\n' ∨ c = '\r'

/-- JS `s.trim()`: strip leading and trailing whitespace. -/
def trimS (s : String) : String :=
  String.mk (((s.data.dropWhile isWS).reverse.dropWhile isWS).reverse)

theorem matchesAt_self_append (pat rest : List Char) :
    matchesAt pat (pat ++ rest) = true := by
  induction pat with
  | nil => cases rest <;> simp [matchesAt, List.isEmpty]
  | cons p ps ih => simp [matchesAt, ih]

theorem append_drop_of_matchesAt (pat : List Char) :
    ∀ l, matchesAt pat l = true → pat ++ l.drop pat.length = l := by
  induction pat with
  | nil => intro l _; simp
  | cons p ps ih =>
    intro l h
    cases l with
    | nil => simp [matchesAt, List.isEmpty] at h
    | cons c cs =>
      simp only [matchesAt, Bool.and_eq_true, beq_iff_eq] at h
      obtain ⟨rfl, h2⟩ := h
      simpa using ih cs h2

/-- Replacing the first occurrence of a pattern *by the pattern itself* is the
identity; this is what the source's `|| translation.original_text` fallback
relies on. -/
theorem replaceFirstL_self (pat : List Char) :
    ∀ l, replaceFirstL pat pat l = l := by
  intro l
  induction l with
  | nil =>
    simp only [replaceFirstL]
    split
    · next h => simpa using append_drop_of_matchesAt pat [] h
    · rfl
  | cons c cs ih =>
    simp only [replaceFirstL]
    split
    · next h => exact append_drop_of_matchesAt pat (c :: cs) h
    · simp [ih]

theorem jsReplaceFirst_self (s pat : String) : jsReplaceFirst s pat pat = s := by
  cases s with
  | mk data => simp [jsReplaceFirst, replaceFirstL_self]

/-! ## The DOM model

`DNode` models the cheerio/domhandler node tree: `text` is a text node
(`nodeType === 3`), `elem` an element with its tag name, attribute list
(cheerio stores attributes in a plain object, so keys are unique) and child
list, and `raw` a blob of already-serialised HTML as produced by
`$el.html(someString)` — it renders as the verbatim string. -/

inductive DNode where
  | text (v : String) : DNode
  | raw (v : String) : DNode
  | elem (tag : String) (attrs : List (String × String)) (children : List DNode) : DNode

/-- Attribute serialisation, ` key="value"` per attribute. -/
def renderAttrs : List (String × String) → String
  | [] => ""
  | (k, v) :: r => " " ++ k ++ "=\"" ++ v ++ "\"" ++ renderAttrs r

mutual

/-- Serialisation of one node back to HTML, as `$.html()` does (entity
re-encoding is not modelled; the source loads cheerio with
`decodeEntities: false`). -/
def renderNode : DNode → String
  | .text v => v
  | .raw v => v
  | .elem t a cs => "<" ++ t ++ renderAttrs a ++ ">" ++ renderList cs ++ "</" ++ t ++ ">"

def renderList : List DNode → String
  | [] => ""
  | n :: ns => renderNode n ++ renderList ns

end

mutual

/-- Concatenated text content of a node, as cheerio's `.text()` computes it
(`raw` blobs contribute nothing: they only ever appear in subtrees the source
never re-reads). -/
def textContentNode : DNode → String
  | .text v => v
  | .raw _ => ""
  | .elem _ _ cs => textContentList cs

def textContentList : List DNode → String
  | [] => ""
  | n :: ns => textContentNode n ++ textContentList ns

end

/-- Attribute lookup, `$el.attr(k)`. -/
def getAttr (attrs : List (String × String)) (k : String) : Option String :=
  match attrs with
  | [] => none
  | (k', v) :: r => if k' = k then some v else getAttr r k

/-- Rewrites the value of attribute `k` (if present) through `f`; cheerio
attribute keys are unique, so mapping over the list is `$el.attr(k, f v)`. -/
def updAttr (k : String) (f : String → String) (attrs : List (String × String)) :
    List (String × String) :=
  attrs.map (fun p => if p.1 = k then (p.1, f p.2) else p)

/-! ## The recorded translation tuples and `walkAndReplace`

A `TTuple` is one row of the
`SELECT original_text, translated_text, element_type FROM translations …`
query; `translated_text` is nullable. -/

structure TTuple where
  original_text : String
  translated_text : Option String
  element_type : String
deriving DecidableEq, Repr

/-- The replacement value `translation.translated_text || translation.original_text`:
JS `||` falls back on `null`/`undefined` *and* on the empty string. -/
def replTarget (orig : String) (tr : Option String) : String :=
  match tr with
  | none => orig
  | some t => if t = "" then orig else t

/-- Action of `walkAndReplace` on one text node's `nodeValue`. -/
def wrStr (orig : String) (tr : Option String) (v : String) : String :=
  if hasSubS v orig then jsReplaceFirst v orig (replTarget orig tr) else v

mutual

/-- Function `walkAndReplace` from the source view handlers: recursively
visits every node, and on text nodes (`nodeType === 3`) whose value contains
`original_text` replaces the first occurrence by
`translated_text || original_text`.  Attributes and tags are never touched. -/
def wrNode (orig : String) (tr : Option String) : DNode → DNode
  | .text v => .text (wrStr orig tr v)
  | .raw v => .raw v
  | .elem t a cs => .elem t a (wrList orig tr cs)

def wrList (orig : String) (tr : Option String) : List DNode → List DNode
  | [] => []
  | n :: ns => wrNode orig tr n :: wrList orig tr ns

end

mutual

/-- Node count, used as the termination measure of the selector loop. -/
def sizeNode : DNode → Nat
  | .text _ => 1
  | .raw _ => 1
  | .elem _ _ cs => sizeList cs + 1

def sizeList : List DNode → Nat
  | [] => 0
  | n :: ns => sizeNode n + sizeList ns + 1

end

mutual

theorem sizeNode_wrNode (orig : String) (tr : Option String) :
    ∀ n, sizeNode (wrNode orig tr n) = sizeNode n
  | .text _ => by simp [wrNode, sizeNode]
  | .raw _ => by simp [wrNode, sizeNode]
  | .elem t a cs => by simp [wrNode, sizeNode, sizeList_wrList orig tr cs]

theorem sizeList_wrList (orig : String) (tr : Option String) :
    ∀ ns, sizeList (wrList orig tr ns) = sizeList ns
  | [] => by simp [wrList]
  | n :: ns => by
    simp [wrList, sizeList, sizeNode_wrNode orig tr n, sizeList_wrList orig tr ns]

end

mutual

/-- One pass of the source's translation loop body

```js
const selector = `${translation.element_type}:contains("${translation.original_text}")`;
$(selector).each((i, el) => { walkAndReplace(el); });
```

modelled top-down: an element whose tag equals `element_type` and whose text
content contains `original_text` gets `walkAndReplace` applied, after which
the walk continues into the (now rewritten) children.  Because
`walkAndReplace` can only change a text node that itself contains
`original_text` — and such a text node makes every enclosing element match
the `:contains` snapshot too — this top-down pass gives the same result as
cheerio's snapshot-then-mutate iteration in document order. -/
def applySelNode (tp : TTuple) : DNode → DNode
  | .text v => .text v
  | .raw v => .raw v
  | .elem t a cs =>
    if t = tp.element_type ∧ hasSubS (textContentList cs) tp.original_text = true then
      .elem t a (applySelList tp (wrList tp.original_text tp.translated_text cs))
    else
      .elem t a (applySelList tp cs)
termination_by n => sizeNode n
decreasing_by
  all_goals simp [sizeNode, sizeList, sizeList_wrList] <;> omega

def applySelList (tp : TTuple) : List DNode → List DNode
  | [] => []
  | n :: ns => applySelNode tp n :: applySelList tp ns
termination_by ns => sizeList ns
decreasing_by
  all_goals simp [sizeNode, sizeList, sizeList_wrList] <;> omega

end

/-- The full `translations.forEach(…)` substitution step shared by
`serveTranslatedWebsite`, `GET /view/:domain` and both `part_000` view
handlers. -/
def applyTranslations (tps : List TTuple) (doc : List DNode) : List DNode :=
  tps.foldl (fun d tp => applySelList tp d) doc

/-- The fixed vocabulary of extractable/rewritable element kinds, the
`'h1, h2, h3, h4, h5, h6, p, span, a, button'` selector. -/
def kinds : List String :=
  ["h1", "h2", "h3", "h4", "h5", "h6", "p", "span", "a", "button"]

/-- Substitution step of `GET /view/:domain/*` in `index.js` (lines 446–469):
for each element of the selector vocabulary with non-empty trimmed text, look
the text up, and on a hit run
`$el.html($el.html().replace(originalText, translation.translated_text))` —
a *string* replacement on the serialised inner HTML, whose result is stored
back as a `raw` blob.  Elements whose inner HTML was replaced are fresh nodes
not in cheerio's snapshot, so the walk does not descend into them. -/
def htmlReplaceInner (orig tr : String) (children : List DNode) : String :=
  jsReplaceFirst (renderList children) orig tr

mutual

def txrNode (lk : String → Option String) : DNode → DNode
  | .text v => .text v
  | .raw v => .raw v
  | .elem t a cs =>
    if t ∈ kinds then
      let orig := trimS (textContentList cs)
      if orig ≠ "" then
        match lk orig with
        | some tr =>
          if tr ≠ "" then .elem t a [.raw (htmlReplaceInner orig tr cs)]
          else .elem t a (txrList lk cs)
        | none => .elem t a (txrList lk cs)
      else .elem t a (txrList lk cs)
    else .elem t a (txrList lk cs)

def txrList (lk : String → Option String) : List DNode → List DNode
  | [] => []
  | n :: ns => txrNode lk n :: txrList lk ns

end

mutual

/-- Substitution step of `GET /view/:domain` in `index.js` (lines 344–355):
for each element of the selector vocabulary with non-empty trimmed text and a
recorded translation, `$el.text(translation.translated_text)` replaces the
whole content by a single text node; the detached old children are skipped
(mutating them has no effect on the output). -/
def rescanNode (lk : String → Option String) : DNode → DNode
  | .text v => .text v
  | .raw v => .raw v
  | .elem t a cs =>
    if t ∈ kinds then
      let orig := trimS (textContentList cs)
      if orig ≠ "" then
        match lk orig with
        | some tr =>
          if tr ≠ "" then .elem t a [.text tr]
          else .elem t a (rescanList lk cs)
        | none => .elem t a (rescanList lk cs)
      else .elem t a (rescanList lk cs)
    else .elem t a (rescanList lk cs)

/-- List version of `rescanNode`. -/
def rescanList (lk : String → Option String) : List DNode → List DNode
  | [] => []
  | n :: ns => rescanNode lk n :: rescanList lk ns

end

mutual

/-- Erases every text-node value, keeping tags, attributes and tree shape:
two nodes with the same chrome differ at most in text-node contents. -/
def chromeNode : DNode → DNode
  | .text _ => .text ""
  | .raw v => .raw v
  | .elem t a cs => .elem t a (chromeList cs)

def chromeList : List DNode → List DNode
  | [] => []
  | n :: ns => chromeNode n :: chromeList ns

end

/-! ## Theorems about the text substitution -/

theorem wrStr_none (orig v : String) : wrStr orig none v = v := by
  simp only [wrStr, replTarget]
  split
  · exact jsReplaceFirst_self v orig
  · rfl

mutual

theorem wrNode_none (orig : String) : ∀ n, wrNode orig none n = n
  | .text v => by simp [wrNode, wrStr_none]
  | .raw v => by simp [wrNode]
  | .elem t a cs => by simp [wrNode, wrList_none orig cs]

theorem wrList_none (orig : String) : ∀ ns, wrList orig none ns = ns
  | [] => by simp [wrList]
  | n :: ns => by simp [wrList, wrNode_none orig n, wrList_none orig ns]

end

mutual

theorem chromeNode_wrNode (orig : String) (tr : Option String) :
    ∀ n, chromeNode (wrNode orig tr n) = chromeNode n
  | .text v => by simp [wrNode, chromeNode]
  | .raw v => by simp [wrNode, chromeNode]
  | .elem t a cs => by simp [wrNode, chromeNode, chromeList_wrList orig tr cs]

theorem chromeList_wrList (orig : String) (tr : Option String) :
    ∀ ns, chromeList (wrList orig tr ns) = chromeList ns
  | [] => by simp [wrList]
  | n :: ns => by
    simp [wrList, chromeList, chromeNode_wrNode orig tr n, chromeList_wrList orig tr ns]

end

mutual

theorem applySelNode_none (tp : TTuple) (h : tp.translated_text = none) :
    ∀ n, applySelNode tp n = n
  | .text v => by simp [applySelNode]
  | .raw v => by simp [applySelNode]
  | .elem t a cs => by
    have hw : wrList tp.original_text tp.translated_text cs = cs := by
      rw [h]; exact wrList_none _ cs
    rw [applySelNode]
    split
    · rw [hw, applySelList_none tp h cs]
    · rw [applySelList_none tp h cs]
termination_by n => sizeNode n
decreasing_by
  all_goals simp [sizeNode, sizeList, sizeList_wrList]
  all_goals omega

theorem applySelList_none (tp : TTuple) (h : tp.translated_text = none) :
    ∀ ns, applySelList tp ns = ns
  | [] => by simp [applySelList]
  | n :: ns => by
    rw [applySelList, applySelNode_none tp h n, applySelList_none tp h ns]
termination_by ns => sizeList ns
decreasing_by
  all_goals simp [sizeNode, sizeList]
  all_goals omega

end

mutual

theorem chromeNode_applySelNode (tp : TTuple) :
    ∀ n, chromeNode (applySelNode tp n) = chromeNode n
  | .text v => by simp [applySelNode]
  | .raw v => by simp [applySelNode]
  | .elem t a cs => by
    rw [applySelNode]
    split
    · rw [chromeNode, chromeNode,
        chromeList_applySelList tp (wrList tp.original_text tp.translated_text cs),
        chromeList_wrList]
    · rw [chromeNode, chromeNode, chromeList_applySelList tp cs]
termination_by n => sizeNode n
decreasing_by
  all_goals simp [sizeNode, sizeList, sizeList_wrList]
  all_goals omega

theorem chromeList_applySelList (tp : TTuple) :
    ∀ ns, chromeList (applySelList tp ns) = chromeList ns
  | [] => by simp [applySelList]
  | n :: ns => by
    rw [applySelList, chromeList, chromeNode_applySelNode tp n,
      chromeList_applySelList tp ns, chromeList]
termination_by ns => sizeList ns
decreasing_by
  all_goals simp [sizeNode, sizeList]
  all_goals omega

end

theorem chromeList_applyTranslations (tps : List TTuple) (doc : List DNode) :
    chromeList (applyTranslations tps doc) = chromeList doc := by
  induction tps generalizing doc with
  | nil => simp [applyTranslations]
  | cons tp tps ih =>
    simp only [applyTranslations, List.foldl_cons]
    rw [show List.foldl (fun d tp => applySelList tp d) (applySelList tp doc) tps
        = applyTranslations tps (applySelList tp doc) from rfl]
    rw [ih, chromeList_applySelList]

/-- C6: on the fetched HTML `<p>Hello world</p>` with the recorded tuple
`("Hello", "Hola", "p")`, the `walkAndReplace` substitution loop produces
`<p>Hola world</p>` — only the matched substring of the text node is replaced
and the surrounding text survives — and for every tuple whose
`translated_text` is absent (`NULL`), the substitution is a no-op on the
whole document. -/
theorem C6_rewriter_scenario :
    applyTranslations [⟨"Hello", some "Hola", "p"⟩]
        [DNode.elem "p" [] [DNode.text "Hello world"]]
      = [DNode.elem "p" [] [DNode.text "Hola world"]] ∧
    ∀ (kind orig : String) (doc : List DNode),
      applyTranslations [⟨orig, none, kind⟩] doc = doc := by
  constructor
  · simp only [applyTranslations, List.foldl_cons, List.foldl_nil]
    rw [applySelList, applySelList, applySelNode]
    rw [if_pos ⟨rfl, by decide⟩]
    rw [show wrList "Hello" (some "Hola") [DNode.text "Hello world"]
        = [DNode.text "Hola world"] from by
      rw [wrList, wrNode, wrList]
      rw [show wrStr "Hello" (some "Hola") "Hello world" = "Hola world" from by decide]]
    rw [applySelList, applySelNode, applySelList]
  · intro kind orig doc
    simp only [applyTranslations, List.foldl_cons, List.foldl_nil]
    exact applySelList_none ⟨orig, none, kind⟩ rfl doc

/-- C2 fails as stated, twice over.  (a) In the `GET /view/:domain/*` handler
of `index.js` the substitution is a *string* replace on the element's
serialised inner HTML, not a text-node walk: on `<p><a href="Hi">Hi</a></p>`
with the recorded pair `("Hi" ↦ "Hola")` the first occurrence of `"Hi"` sits
inside the `href` attribute value, so the attribute — whose value equals the
recorded original text — is rewritten to `"Hola"` while the visible text
keeps saying `"Hi"`.  (b) `walkAndReplace` itself has no tag guard: with the
tuple `("x" ↦ "y", kind "p")` on `<p>x<script>x</script></p>` the `p`
matches the `:contains` selector and the walk descends into the nested
`<script>`, rewriting the script element's body from `x` to `y`. -/
theorem C2_counterexample :
    (renderNode (txrNode (fun t => if t = "Hi" then some "Hola" else none)
        (DNode.elem "p" [] [DNode.elem "a" [("href", "Hi")] [DNode.text "Hi"]]))
      = "<p><a href=\"Hola\">Hi</a></p>" ∧
    renderNode (txrNode (fun t => if t = "Hi" then some "Hola" else none)
        (DNode.elem "p" [] [DNode.elem "a" [("href", "Hi")] [DNode.text "Hi"]]))
      ≠ renderNode
          (DNode.elem "p" [] [DNode.elem "a" [("href", "Hi")] [DNode.text "Hola"]])) ∧
    applyTranslations [⟨"x", some "y", "p"⟩]
        [DNode.elem "p" [] [DNode.text "x", DNode.elem "script" [] [DNode.text "x"]]]
      = [DNode.elem "p" [] [DNode.text "y", DNode.elem "script" [] [DNode.text "y"]]] ∧
    textContentNode (DNode.elem "script" [] [DNode.text "y"])
      ≠ textContentNode (DNode.elem "script" [] [DNode.text "x"]) := by
  refine ⟨⟨by decide, by decide⟩, ?_, by decide⟩
  simp only [applyTranslations, List.foldl_cons, List.foldl_nil]
  rw [applySelList, applySelList, applySelNode]
  rw [if_pos ⟨rfl, by decide⟩]
  rw [show wrList "x" (some "y")
        [DNode.text "x", DNode.elem "script" [] [DNode.text "x"]]
      = [DNode.text "y", DNode.elem "script" [] [DNode.text "y"]] from by
    simp only [wrList, wrNode, show wrStr "x" (some "y") "x" = "y" from by decide]]
  rw [applySelList, applySelNode, applySelList]
  rw [show applySelNode ⟨"x", some "y", "p"⟩ (DNode.elem "script" [] [DNode.text "y"])
      = DNode.elem "script" [] [DNode.text "y"] from by
    rw [applySelNode]
    rw [if_neg (show ¬(("script" : String)
          = (⟨"x", some "y", "p"⟩ : TTuple).element_type ∧
        hasSubS (textContentList [DNode.text "y"])
          (⟨"x", some "y", "p"⟩ : TTuple).original_text = true) from by decide)]
    rw [applySelList, applySelNode, applySelList]]
  rw [applySelList]

/-- C2 amended: the `walkAndReplace`-based substitution (used by
`serveTranslatedWebsite`, by `GET /view/:domain` in `index.js` and by every
view handler of `part_000`) changes only text-node values: the "chrome" of
the document — tags, attribute lists and tree shape — is untouched, for
every tuple set and every document.  (Two carve-outs, both shown by the
counterexample: the `GET /view/:domain/*` handler of `index.js` instead
string-replaces serialised inner HTML and can hit an attribute value; and
`walkAndReplace` has no tag guard, so a script or style element nested in a
matched element has its body — a text-node value — rewritten.) -/
theorem C2_amended_walk_text_only (tps : List TTuple) (doc : List DNode) :
    chromeList (applyTranslations tps doc) = chromeList doc :=
  chromeList_applyTranslations tps doc

/-! ## The URL model

`UrlT` carries the components of a parsed WHATWG URL that the source reads:
`protocol` (with trailing colon), `hostname` (no port), `pathname` and
`search` (with leading question mark).  `resolveUrl` models
`new URL(href, base)`, returning `none` where the constructor throws.
Simplifications relative to WHATWG: fragments and ports are dropped,
scheme/host case normalisation and percent-encoding are not modelled, and
`http:`/`https:` hrefs without a `//` authority are rejected. -/

structure UrlT where
  protocol : String
  hostname : String
  pathname : String
  search : String
deriving DecidableEq, Repr

/-- Splits a character list at the first character satisfying `stop`: the
first component is the (stop-free) prefix, the second the rest starting with
the stop character (or empty). -/
def takeUntil (stop : Char → Bool) : List Char → List Char × List Char
  | [] => ([], [])
  | c :: cs =>
    if stop c then ([], c :: cs)
    else
      let r := takeUntil stop cs
      (c :: r.1, r.2)

/-- Characters allowed in a URL scheme after the initial letter. -/
def isSchemeChar (c : Char) : Bool := c.isAlpha || c.isDigit || c = '+' || c = '-' || c = '.'

/-- Recognises `scheme ":" rest` at the front of an href; the scheme must
start with a letter and continue with scheme characters, as in WHATWG. -/
def schemeSplit (l : List Char) : Option (String × List Char) :=
  match (takeUntil (fun c => c = ':') l).2 with
  | ':' :: rest =>
    match (takeUntil (fun c => c = ':') l).1 with
    | [] => none
    | c0 :: cs =>
      if c0.isAlpha && cs.all isSchemeChar then
        some (String.mk (c0 :: cs), rest)
      else none
  | _ => none

/-- Splits `path [?query] [#fragment]` into pathname and search, dropping the
fragment. -/
def splitPathQuery (l : List Char) : String × String :=
  (String.mk (takeUntil (fun c => c = '?') (takeUntil (fun c => c = '#') l).1).1,
   String.mk (takeUntil (fun c => c = '?') (takeUntil (fun c => c = '#') l).1).2)

/-- Pathname of the part after the host: empty paths default to `/`, as
`url.pathname` does for special schemes. -/
def pathOfRest (rest : List Char) : String :=
  if (splitPathQuery rest).1 = "" then "/" else (splitPathQuery rest).1

/-- Parses `host[:port][/path][?query][#fragment]` (what follows `//`).  An
empty host makes the WHATWG constructor throw for special schemes. -/
def parseHostPath (proto : String) (l : List Char) : Option UrlT :=
  match (takeUntil (fun c => c = ':') (takeUntil (fun c => c = '/' || c = '?' || c = '#') l).1).1 with
  | [] => none
  | h :: hs =>
    some ⟨proto, String.mk (h :: hs),
      pathOfRest (takeUntil (fun c => c = '/' || c = '?' || c = '#') l).2,
      (splitPathQuery (takeUntil (fun c => c = '/' || c = '?' || c = '#') l).2).2⟩

/-- Removes `.` and `..` segments, WHATWG-style (`..` pops, clamped at the
root). -/
def normalizeSegs (acc : List String) : List String → List String
  | [] => acc.reverse
  | "." :: rest => normalizeSegs acc rest
  | ".." :: rest => normalizeSegs (acc.drop 1) rest
  | s :: rest => normalizeSegs (s :: acc) rest

/-- Merges a relative path reference against the base path's directory and
normalises dot segments; the result always starts with `/`. -/
def mergeRelPath (basePath relPath : String) : String :=
  let dir := ((basePath.splitOn "/").dropLast).drop 1
  let relSegs := relPath.splitOn "/"
  let out := normalizeSegs [] (dir ++ relSegs)
  let out := if relSegs.getLast? = some "." ∨ relSegs.getLast? = some ".." then
    out ++ [""] else out
  "/" ++ String.intercalate "/" out

/-- Resolution of an href with no (valid) scheme against the base:
protocol-relative (`//…`), path-absolute (`/…`), fragment-only, query-only,
empty, or a relative path reference. -/
def resolveNoScheme (href : String) (base : UrlT) : Option UrlT :=
  if startsWithS href "//" = true then
    parseHostPath base.protocol (href.data.drop 2)
  else if startsWithS href "/" = true then
    some ⟨base.protocol, base.hostname, (splitPathQuery href.data).1,
      (splitPathQuery href.data).2⟩
  else if startsWithS href "#" = true then some base
  else if startsWithS href "?" = true then
    some ⟨base.protocol, base.hostname, base.pathname, (splitPathQuery href.data).2⟩
  else if href = "" then some base
  else
    some ⟨base.protocol, base.hostname,
      mergeRelPath base.pathname (splitPathQuery href.data).1,
      (splitPathQuery href.data).2⟩

/-- Model of `new URL(href, base)`. -/
def resolveUrl (href : String) (base : UrlT) : Option UrlT :=
  match schemeSplit href.data with
  | some (scheme, rest) =>
    if scheme = "http" ∨ scheme = "https" then
      match rest with
      | '/' :: '/' :: r => parseHostPath (scheme ++ ":") r
      | _ => none
    else
      some ⟨scheme ++ ":", "", (splitPathQuery rest).1, (splitPathQuery rest).2⟩
  | none => resolveNoScheme href base

/-- Serialisation `url.href`: opaque-path URLs (empty hostname, as produced
for non-special schemes such as `mailto:` or `data:`) have no `//`. -/
def urlHref (u : UrlT) : String :=
  if u.hostname = "" then u.protocol ++ u.pathname ++ u.search
  else u.protocol ++ "//" ++ u.hostname ++ u.pathname ++ u.search

/-! ## The Link Discoverer -/

mutual

/-- Hrefs of all `<a>` elements in document order, skipping falsy values
(`if (!href) return`). -/
def collectHrefsNode : DNode → List String
  | .text _ => []
  | .raw _ => []
  | .elem t a cs =>
    (if t = "a" then
      match getAttr a "href" with
      | some v => if v = "" then [] else [v]
      | none => []
    else []) ++ collectHrefsList cs

def collectHrefsList : List DNode → List String
  | [] => []
  | n :: ns => collectHrefsNode n ++ collectHrefsList ns

end

/-- Lowercasing, for the case-insensitive extension regex. -/
def lowerS (s : String) : String := String.mk (s.data.map Char.toLower)

/-- The extension alternation of
`/\.(jpg|jpeg|png|gif|ico|css|js|pdf|doc|docx|zip)$/i`. -/
def extsList : List String :=
  [".jpg", ".jpeg", ".png", ".gif", ".ico", ".css", ".js", ".pdf", ".doc", ".docx", ".zip"]

/-- Case-insensitive test for the banned binary/document/script/style
extensions. -/
def bannedExt (s : String) : Bool := extsList.any (fun e => endsWithS (lowerS s) e)

/-- Membership of a character, the `/@/` test. -/
def hasCharL (ch : Char) : List Char → Bool
  | [] => false
  | c :: cs => c = ch || hasCharL ch cs

/-- The `/^[^\/]*:/` test: a colon appears before any slash. -/
def schemeLikeL : List Char → Bool
  | [] => false
  | c :: cs => if c = '/' then false else if c = ':' then true else schemeLikeL cs

/-- Function `isValidWebpagePath` from `index.js` (lines 481–500). -/
def isValidWebpagePath (url : String) : Bool :=
  !(startsWithS url "mailto:" || startsWithS url "tel:" || startsWithS url "#" ||
    startsWithS url "javascript:" || bannedExt url || hasCharL '@' url.data ||
    schemeLikeL url.data) &&
  (startsWithS url "/" || startsWithS url "./" || startsWithS url "../")

/-- JS `Set.prototype.add`: a no-op on present elements, appended (in
insertion order) otherwise. -/
def setAdd (s : List String) (x : String) : List String :=
  if x ∈ s then s else s ++ [x]

/-- Accumulation loop shared by both `getPageLinks` versions: for each href,
`keep` performs the `new URL` resolution and the guards, and a produced
pathname is added to the result set. -/
def linksFold (keep : String → Option String) (hrefs : List String) : List String :=
  hrefs.foldl (fun links href =>
    match keep href with
    | some pth => setAdd links pth
    | none => links) []

/-- Function `getPageLinks` from `index.js` (lines 503–530): same-hostname
links whose pathname passes `isValidWebpagePath`. -/
def getPageLinks (doc : List DNode) (base : UrlT) : List String :=
  linksFold (fun href =>
    match resolveUrl href base with
    | none => none
    | some u =>
      if u.hostname = base.hostname ∧ isValidWebpagePath u.pathname = true then
        some u.pathname
      else none) (collectHrefsList doc)

/-- Function `getPageLinks` from `part_000` (lines 445–466): same-hostname
`http(s)` links, with *no* path-validity filtering. -/
def getPageLinksPart (doc : List DNode) (base : UrlT) : List String :=
  linksFold (fun href =>
    match resolveUrl href base with
    | none => none
    | some u =>
      if u.hostname = base.hostname ∧ (u.protocol = "http:" ∨ u.protocol = "https:") then
        some u.pathname
      else none) (collectHrefsList doc)

/-! ## Lemmas about `takeUntil`, URLs and the link fold -/

theorem takeUntil_fst_false (stop : Char → Bool) :
    ∀ l, ∀ c ∈ (takeUntil stop l).1, stop c = false := by
  intro l
  induction l with
  | nil => simp [takeUntil]
  | cons c cs ih =>
    rw [takeUntil]
    split
    · simp
    · next h =>
      intro d hd
      simp only [List.mem_cons] at hd
      rcases hd with rfl | hd
      · simpa using h
      · exact ih d hd

theorem takeUntil_snd_head (stop : Char → Bool) :
    ∀ l c t, (takeUntil stop l).2 = c :: t → stop c = true := by
  intro l
  induction l with
  | nil => simp [takeUntil]
  | cons d ds ih =>
    intro c t h
    rw [takeUntil] at h
    split at h
    · next hs =>
      simp only [Prod.snd] at h
      cases h
      exact hs
    · exact ih c t h

theorem takeUntil_all_false (stop : Char → Bool) :
    ∀ l, (∀ c ∈ l, stop c = false) → takeUntil stop l = (l, []) := by
  intro l
  induction l with
  | nil => simp [takeUntil]
  | cons c cs ih =>
    intro h
    rw [takeUntil, if_neg (by simp [h c (List.mem_cons_self c cs)]), ih (fun d hd => h d (List.mem_cons_of_mem c hd))]

theorem takeUntil_append (stop : Char → Bool) (a : List Char) (d : Char) (l : List Char)
    (ha : ∀ c ∈ a, stop c = false) (hd : stop d = true) :
    takeUntil stop (a ++ d :: l) = (a, d :: l) := by
  induction a with
  | nil => simp [takeUntil, hd]
  | cons c cs ih =>
    rw [List.cons_append, takeUntil,
      if_neg (by simp [ha c (List.mem_cons_self c cs)]),
      ih (fun e he => ha e (List.mem_cons_of_mem c he))]

theorem stringMk_data (s : String) : String.mk s.data = s := rfl

theorem dataAppend (s t : String) : (s ++ t).data = s.data ++ t.data :=
  String.data_append s t

theorem startsWithS_append (s t : String) : startsWithS (s ++ t) s = true := by
  rw [startsWithS, dataAppend]
  exact matchesAt_self_append s.data t.data

theorem matchesAt_nil (l : List Char) : matchesAt [] l = true := by
  cases l <;> simp [matchesAt, List.isEmpty]

theorem startsWithS_mk_slash (t : List Char) :
    startsWithS (String.mk ('/' :: t)) "/" = true := by
  simp [startsWithS, matchesAt, matchesAt_nil]

theorem startsWith_slash_data (s : String) (h : startsWithS s "/" = true) :
    ∃ t, s.data = '/' :: t := by
  rcases hd : s.data with _ | ⟨c, t⟩
  · rw [startsWithS, hd] at h
    simp [matchesAt, List.isEmpty] at h
  · rw [startsWithS, hd] at h
    simp only [show ("/" : String).data = ['/'] from rfl, matchesAt, Bool.and_eq_true,
      beq_iff_eq] at h
    exact ⟨t, by rw [← h.1]⟩

theorem splitPathQuery_slash (l : List Char) :
    startsWithS (splitPathQuery ('/' :: l)).1 "/" = true := by
  rw [splitPathQuery, takeUntil, if_neg (by decide)]
  simp only
  rw [takeUntil, if_neg (by decide)]
  exact startsWithS_mk_slash _

theorem splitPathQuery_fst_empty_of_stop (c : Char) (l : List Char)
    (h : c = '?' ∨ c = '#') : (splitPathQuery (c :: l)).1 = "" := by
  rcases h with rfl | rfl
  · rw [splitPathQuery, takeUntil, if_neg (by decide)]
    simp only
    rw [takeUntil, if_pos (by decide)]
  · rw [splitPathQuery, takeUntil, if_pos (by decide)]
    simp [takeUntil]

theorem ne_empty_of_startsWith_slash (x : String) (h : startsWithS x "/" = true) :
    x ≠ "" := by
  intro he
  rw [he] at h
  simp [startsWithS, matchesAt] at h

theorem pathOfRest_slash (rest : List Char)
    (h : rest = [] ∨ ∃ c t, rest = c :: t ∧ (c = '/' ∨ c = '?' ∨ c = '#')) :
    startsWithS (pathOfRest rest) "/" = true := by
  rcases h with rfl | ⟨c, t, rfl, hc⟩
  · decide
  · rcases hc with rfl | rfl | rfl
    · rw [pathOfRest,
        if_neg (ne_empty_of_startsWith_slash _ (splitPathQuery_slash t))]
      exact splitPathQuery_slash t
    · rw [pathOfRest, if_pos (splitPathQuery_fst_empty_of_stop '?' t (Or.inl rfl))]
      decide
    · rw [pathOfRest, if_pos (splitPathQuery_fst_empty_of_stop '#' t (Or.inr rfl))]
      decide

theorem parseHostPath_slash (proto : String) (l : List Char) (u : UrlT)
    (h : parseHostPath proto l = some u) : startsWithS u.pathname "/" = true := by
  rw [parseHostPath] at h
  split at h
  · cases h
  · simp only [Option.some.injEq] at h
    subst h
    simp only
    apply pathOfRest_slash
    rcases hsnd : (takeUntil (fun c => c = '/' || c = '?' || c = '#') l).2 with _ | ⟨c, t⟩
    · exact Or.inl rfl
    · have hc := takeUntil_snd_head _ l c t hsnd
      simp only [Bool.or_eq_true, decide_eq_true_eq] at hc
      exact Or.inr ⟨c, t, rfl, by tauto⟩

theorem resolveNoScheme_pathname_slash (href : String) (base : UrlT)
    (hbase : startsWithS base.pathname "/" = true) (u : UrlT)
    (h : resolveNoScheme href base = some u) :
    u.hostname = "" ∨ startsWithS u.pathname "/" = true := by
  rw [resolveNoScheme] at h
  split_ifs at h with h1 h2 h3 h4 h5
  · exact Or.inr (parseHostPath_slash _ _ u h)
  · simp only [Option.some.injEq] at h
    subst h
    obtain ⟨t, ht⟩ := startsWith_slash_data href h2
    rw [ht]
    exact Or.inr (splitPathQuery_slash _)
  · simp only [Option.some.injEq] at h
    subst h
    exact Or.inr hbase
  · simp only [Option.some.injEq] at h
    subst h
    exact Or.inr hbase
  · simp only [Option.some.injEq] at h
    subst h
    exact Or.inr hbase
  · simp only [Option.some.injEq] at h
    subst h
    exact Or.inr (by rw [mergeRelPath]; exact startsWithS_append "/" _)

theorem resolveUrl_pathname_slash (href : String) (base : UrlT)
    (hbase : startsWithS base.pathname "/" = true) (u : UrlT)
    (h : resolveUrl href base = some u) :
    u.hostname = "" ∨ startsWithS u.pathname "/" = true := by
  rw [resolveUrl] at h
  split at h
  · split at h
    · split at h
      · exact Or.inr (parseHostPath_slash _ _ u h)
      · cases h
    · simp only [Option.some.injEq] at h
      subst h
      exact Or.inl rfl
  · exact resolveNoScheme_pathname_slash href base hbase u h

theorem mem_setAdd (l : List String) (x p : String) :
    p ∈ setAdd l x ↔ p ∈ l ∨ p = x := by
  by_cases hx : x ∈ l
  · simp only [setAdd, if_pos hx]
    constructor
    · exact Or.inl
    · rintro (h | rfl)
      · exact h
      · exact hx
  · simp [setAdd, if_neg hx]

theorem linksFold_mem_aux (keep : String → Option String) (p : String) :
    ∀ (hrefs acc : List String), p ∈ List.foldl (fun links href =>
      match keep href with
      | some pth => setAdd links pth
      | none => links) acc hrefs → p ∈ acc ∨ ∃ href ∈ hrefs, keep href = some p
  | [], _, h => Or.inl h
  | href :: hrefs, acc, h => by
    simp only [List.foldl_cons] at h
    rcases linksFold_mem_aux keep p hrefs _ h with h' | ⟨href', hm, hk⟩
    · rcases hkeep : keep href with _ | pth
      · rw [hkeep] at h'
        exact Or.inl h'
      · rw [hkeep] at h'
        rcases (mem_setAdd acc pth p).1 h' with h'' | rfl
        · exact Or.inl h''
        · exact Or.inr ⟨href, List.mem_cons_self _ _, hkeep⟩
    · exact Or.inr ⟨href', List.mem_cons_of_mem _ hm, hk⟩

theorem mem_linksFold (keep : String → Option String) (hrefs : List String) (p : String)
    (hp : p ∈ linksFold keep hrefs) : ∃ href ∈ hrefs, keep href = some p := by
  rcases linksFold_mem_aux keep p hrefs [] hp with h' | h'
  · simp at h'
  · exact h'

/-- C5 fails as stated: the `part_000` version of `getPageLinks` — one of the
two Link Discoverers the claim covers — filters only by hostname and
`http(s)` protocol, so on a document with `<a href="/photo.jpg">` it returns
the entry `/photo.jpg`, which ends in the listed binary extension `.jpg`. -/
theorem C5_counterexample :
    getPageLinksPart [DNode.elem "a" [("href", "/photo.jpg")] []]
        ⟨"https:", "example.com", "/", ""⟩
      = ["/photo.jpg"] ∧ bannedExt "/photo.jpg" = true := by
  constructor
  · decide
  · decide

/-- Demo document for the Link Discoverer witness. -/
def demoLinksDoc : List DNode :=
  [DNode.elem "body" []
    [DNode.elem "a" [("href", "/about")] [DNode.text "About"],
     DNode.elem "a" [("href", "mailto:bob@example.com")] [],
     DNode.elem "a" [("href", "/pic.png")] [],
     DNode.elem "a" [("href", "https://other.example/x")] []]]

/-- Demo base URL `https://example.com/`. -/
def demoBase : UrlT := ⟨"https:", "example.com", "/", ""⟩

/-- C5 amended: the *`index.js`* version of `getPageLinks` has every property
the claim lists: no returned entry starts with `mailto:`, `tel:`, `#` or
`javascript:`, none ends in a listed extension, contains `@`, or has a
scheme-like prefix; every entry starts with `/` and is the pathname of some
anchor href of the document whose resolution against the base has the base's
hostname.  The `part_000` version guarantees only the hostname/protocol part
(see the counterexample). -/
theorem C5_amended_link_filter (doc : List DNode) (base : UrlT)
    (hhost : base.hostname ≠ "") (hpath : startsWithS base.pathname "/" = true) :
    ∀ p ∈ getPageLinks doc base,
      startsWithS p "mailto:" = false ∧ startsWithS p "tel:" = false ∧
      startsWithS p "#" = false ∧ startsWithS p "javascript:" = false ∧
      bannedExt p = false ∧ hasCharL '@' p.data = false ∧
      schemeLikeL p.data = false ∧ startsWithS p "/" = true ∧
      ∃ href ∈ collectHrefsList doc, ∃ u, resolveUrl href base = some u ∧
        u.hostname = base.hostname ∧ p = u.pathname := by
  intro p hp
  obtain ⟨href, hhref, hkeep⟩ := mem_linksFold _ _ p hp
  rcases hres : resolveUrl href base with _ | u
  · rw [hres] at hkeep; simp at hkeep
  · rw [hres] at hkeep
    simp only at hkeep
    split at hkeep
    · next hguard =>
      obtain ⟨hhosteq, hvalid⟩ := hguard
      simp only [Option.some.injEq] at hkeep
      subst hkeep
      have hslash : startsWithS u.pathname "/" = true := by
        rcases resolveUrl_pathname_slash href base hpath u hres with h0 | h
        · exact absurd (hhosteq.symm.trans h0) hhost
        · exact h
      simp only [isValidWebpagePath, Bool.and_eq_true, Bool.not_eq_true',
        Bool.or_eq_false_iff] at hvalid
      obtain ⟨⟨⟨⟨⟨⟨⟨h1, h2⟩, h3⟩, h4⟩, h5⟩, h6⟩, h7⟩, _⟩ := hvalid
      exact ⟨h1, h2, h3, h4, h5, h6, h7, hslash,
        href, hhref, u, hres, hhosteq, rfl⟩
    · simp at hkeep

/-! ## The asset rewriting pass (Content Rewriter, `serveTranslatedWebsite`)

Lines 217–231 of `index.js` (identical in `part_000`): for every
`img, script, link, source, video, audio` element and each of the attributes
`src`, `href`, `poster`, a truthy value that starts with neither `http` nor
`data:` is replaced by `new URL(value, baseUrl).href`; a resolution failure
is caught and leaves the value unchanged. -/

/-- Action on one attribute value. -/
def rwVal (base : UrlT) (v : String) : String :=
  if v = "" then v
  else if (startsWithS v "http" || startsWithS v "data:") = true then v
  else
    match resolveUrl v base with
    | none => v
    | some u => urlHref u

/-- The `['src', 'href', 'poster'].forEach(…)` loop over one element's
attributes. -/
def assetAttrsServe (base : UrlT) (a : List (String × String)) : List (String × String) :=
  updAttr "poster" (rwVal base) (updAttr "href" (rwVal base) (updAttr "src" (rwVal base) a))

/-- The selector `'img, script, link, source, video, audio'`. -/
def assetTagsServe : List String := ["img", "script", "link", "source", "video", "audio"]

mutual

/-- The whole asset-rewriting pass over a document. -/
def assetServeNode (base : UrlT) : DNode → DNode
  | .text v => .text v
  | .raw v => .raw v
  | .elem t a cs =>
    .elem t (if t ∈ assetTagsServe then assetAttrsServe base a else a)
      (assetServeList base cs)

def assetServeList (base : UrlT) : List DNode → List DNode
  | [] => []
  | n :: ns => assetServeNode base n :: assetServeList base ns

end

/-! ## Lemmas for idempotence of the asset pass -/

theorem takeUntil_append_eq (stop : Char → Bool) :
    ∀ l, (takeUntil stop l).1 ++ (takeUntil stop l).2 = l := by
  intro l
  induction l with
  | nil => simp [takeUntil]
  | cons c cs ih =>
    rw [takeUntil]
    split
    · simp
    · simpa using ih

theorem schemeSplit_some (l : List Char) (scheme : String) (rest : List Char)
    (h : schemeSplit l = some (scheme, rest)) :
    l = scheme.data ++ ':' :: rest ∧ (∀ c ∈ scheme.data, (c = ':') = False) ∧
    (∃ c0 cs, scheme.data = c0 :: cs ∧ (c0.isAlpha && cs.all isSchemeChar) = true) := by
  rw [schemeSplit] at h
  split at h
  · next rest' hsnd =>
    split at h
    · cases h
    · next c0 cs hfst =>
      split at h
      · next hvalid =>
        simp only [Option.some.injEq, Prod.mk.injEq] at h
        obtain ⟨rfl, rfl⟩ := h
        refine ⟨?_, ?_, c0, cs, rfl, hvalid⟩
        · have := takeUntil_append_eq (fun c => c = ':') l
          rw [hfst, hsnd] at this
          exact this.symm
        · intro c hc
          have := takeUntil_fst_false (fun c => c = ':') l c (hfst ▸ hc)
          simp only [decide_eq_false_iff_not] at this
          simp [this]
      · cases h
  · cases h

theorem mem_takeUntil_fst (stop : Char → Bool) (l : List Char) (c : Char)
    (hc : c ∈ (takeUntil stop l).1) : c ∈ l := by
  have := takeUntil_append_eq stop l
  rw [← this]
  exact List.mem_append_left _ hc

theorem splitPathQuery_roundtrip (rest : List Char) :
    splitPathQuery ((splitPathQuery rest).1.data ++ (splitPathQuery rest).2.data)
      = splitPathQuery rest := by
  have hPdef : (splitPathQuery rest).1.data
      = (takeUntil (fun c => c = '?') (takeUntil (fun c => c = '#') rest).1).1 := rfl
  have hQdef : (splitPathQuery rest).2.data
      = (takeUntil (fun c => c = '?') (takeUntil (fun c => c = '#') rest).1).2 := rfl
  have hB := takeUntil_fst_false (fun c => c = '#') rest
  have hPmem : ∀ c ∈ (splitPathQuery rest).1.data,
      c ∈ (takeUntil (fun c => c = '#') rest).1 := by
    rw [hPdef]
    exact fun c hc => mem_takeUntil_fst _ _ c hc
  have hQmem : ∀ c ∈ (splitPathQuery rest).2.data,
      c ∈ (takeUntil (fun c => c = '#') rest).1 := by
    rw [hQdef]
    intro c hc
    have := takeUntil_append_eq (fun c => c = '?') (takeUntil (fun c => c = '#') rest).1
    rw [← this]
    exact List.mem_append_right _ hc
  have hPq : ∀ c ∈ (splitPathQuery rest).1.data, (fun c => decide (c = '?')) c = false := by
    rw [hPdef]
    exact takeUntil_fst_false _ _
  have step1 : takeUntil (fun c => c = '#')
      ((splitPathQuery rest).1.data ++ (splitPathQuery rest).2.data)
      = ((splitPathQuery rest).1.data ++ (splitPathQuery rest).2.data, []) := by
    apply takeUntil_all_false
    intro c hc
    rcases List.mem_append.1 hc with hc | hc
    · exact hB c (hPmem c hc)
    · exact hB c (hQmem c hc)
  have step2 : takeUntil (fun c => c = '?')
      ((splitPathQuery rest).1.data ++ (splitPathQuery rest).2.data)
      = ((splitPathQuery rest).1.data, (splitPathQuery rest).2.data) := by
    rcases hQ : (splitPathQuery rest).2.data with _ | ⟨d, t⟩
    · rw [List.append_nil]
      exact takeUntil_all_false _ _ hPq
    · have hd : decide (d = '?') = true :=
        takeUntil_snd_head (fun c => c = '?') (takeUntil (fun c => c = '#') rest).1 d t
          (hQdef.symm.trans hQ)
      simp only [decide_eq_true_eq] at hd
      subst hd
      exact takeUntil_append _ _ '?' t hPq (by decide)
  conv_lhs => rw [splitPathQuery]
  rw [step1]
  simp only
  rw [step2, stringMk_data, stringMk_data]

theorem parseHostPath_fields (proto : String) (l : List Char) (u : UrlT)
    (h : parseHostPath proto l = some u) : u.protocol = proto ∧ u.hostname ≠ "" := by
  rw [parseHostPath] at h
  split at h
  · cases h
  · simp only [Option.some.injEq] at h
    subst h
    refine ⟨rfl, ?_⟩
    simp only
    intro he
    rw [String.ext_iff] at he
    simp at he

theorem resolveNoScheme_fields (href : String) (base : UrlT) (u : UrlT)
    (h : resolveNoScheme href base = some u) :
    u.protocol = base.protocol ∧ (u.hostname = base.hostname ∨ u.hostname ≠ "") := by
  rw [resolveNoScheme] at h
  split_ifs at h with h1 h2 h3 h4 h5
  · obtain ⟨hp, hh⟩ := parseHostPath_fields _ _ u h
    exact ⟨hp, Or.inr hh⟩
  all_goals simp only [Option.some.injEq] at h
  all_goals subst h
  all_goals exact ⟨rfl, Or.inl rfl⟩

theorem resolveUrl_protocol (v : String) (base : UrlT) (u : UrlT)
    (h : resolveUrl v base = some u) :
    u.protocol = base.protocol ∨ u.protocol = "http:" ∨ u.protocol = "https:" ∨
      u.hostname = "" := by
  rw [resolveUrl] at h
  split at h
  · next scheme rest _ =>
    split at h
    · next hsch =>
      split at h
      · have := (parseHostPath_fields _ _ u h).1
        rcases hsch with rfl | rfl
        · exact Or.inr (Or.inl this)
        · exact Or.inr (Or.inr (Or.inl this))
      · cases h
    · simp only [Option.some.injEq] at h
      subst h
      exact Or.inr (Or.inr (Or.inr rfl))
  · exact Or.inl (resolveNoScheme_fields v base u h).1

theorem resolveUrl_opaque_shape (v : String) (base : UrlT) (u : UrlT)
    (h : resolveUrl v base = some u) (hu : u.hostname = "") (hb : base.hostname ≠ "") :
    ∃ scheme rest, schemeSplit v.data = some (scheme, rest) ∧
      ¬(scheme = "http" ∨ scheme = "https") ∧
      u = ⟨scheme ++ ":", "", (splitPathQuery rest).1, (splitPathQuery rest).2⟩ := by
  rw [resolveUrl] at h
  split at h
  · next scheme rest heq =>
    split at h
    · next hsch =>
      split at h
      · exact absurd hu (parseHostPath_fields _ _ u h).2
      · cases h
    · next hsch =>
      simp only [Option.some.injEq] at h
      exact ⟨scheme, rest, heq, hsch, h.symm⟩
  · rcases (resolveNoScheme_fields v base u h).2 with he | he
    · exact absurd (he.symm.trans hu) hb
    · exact absurd hu he

theorem resolveUrl_roundtrip_opaque (v : String) (base : UrlT) (u : UrlT)
    (h : resolveUrl v base = some u) (hu : u.hostname = "") (hb : base.hostname ≠ "") :
    resolveUrl (urlHref u) base = some u := by
  obtain ⟨scheme, rest, hsch, hne, rfl⟩ := resolveUrl_opaque_shape v base u h hu hb
  obtain ⟨_, hcolon, c0, cs, hdata, hvalid⟩ := schemeSplit_some v.data scheme rest hsch
  have hhref : (urlHref ⟨scheme ++ ":", "",
      (splitPathQuery rest).1, (splitPathQuery rest).2⟩).data
      = scheme.data ++ ':' :: ((splitPathQuery rest).1.data ++ (splitPathQuery rest).2.data) := by
    simp [urlHref, dataAppend, List.append_assoc, show (":" : String).data = [':'] from rfl]
  have hss : schemeSplit (scheme.data ++ ':' ::
      ((splitPathQuery rest).1.data ++ (splitPathQuery rest).2.data))
      = some (scheme, (splitPathQuery rest).1.data ++ (splitPathQuery rest).2.data) := by
    rw [schemeSplit, takeUntil_append _ _ ':' _
      (fun c hc => by simp [hcolon c hc]) (by decide), hdata]
    simp [hvalid, ← hdata, stringMk_data]
  rw [resolveUrl, hhref, hss]
  simp only [if_neg hne]
  rw [splitPathQuery_roundtrip rest]

theorem startsWith_http_of_protocol (u : UrlT)
    (hp : u.protocol = "http:" ∨ u.protocol = "https:") (hh : u.hostname ≠ "") :
    startsWithS (urlHref u) "http" = true := by
  rw [urlHref, if_neg hh, startsWithS]
  rw [dataAppend, dataAppend, dataAppend, dataAppend]
  rcases hp with hp | hp <;> rw [hp] <;>
    simp [show ("http:" : String).data = ['h', 't', 't', 'p', ':'] from rfl,
      show ("https:" : String).data = ['h', 't', 't', 'p', 's', ':'] from rfl,
      show ("http" : String).data = ['h', 't', 't', 'p'] from rfl, matchesAt]

theorem map_congr_mem {α β : Type} (l : List α) (f g : α → β)
    (h : ∀ a ∈ l, f a = g a) : l.map f = l.map g := by
  induction l with
  | nil => rfl
  | cons a l ih =>
    simp only [List.map_cons]
    rw [h a (List.mem_cons_self a l), ih (fun b hb => h b (List.mem_cons_of_mem a hb))]

theorem assetAttrsServe_idem (base : UrlT)
    (hf : ∀ v, rwVal base (rwVal base v) = rwVal base v)
    (a : List (String × String)) :
    assetAttrsServe base (assetAttrsServe base a) = assetAttrsServe base a := by
  simp only [assetAttrsServe, updAttr, List.map_map]
  apply map_congr_mem
  intro p _
  obtain ⟨k, v⟩ := p
  by_cases h1 : k = "src" <;> by_cases h2 : k = "href" <;> by_cases h3 : k = "poster" <;>
    simp [Function.comp, h1, h2, h3, hf] <;> simp_all

mutual

theorem assetServeNode_idem (base : UrlT)
    (hf : ∀ v, rwVal base (rwVal base v) = rwVal base v) :
    ∀ n, assetServeNode base (assetServeNode base n) = assetServeNode base n
  | .text v => by simp [assetServeNode]
  | .raw v => by simp [assetServeNode]
  | .elem t a cs => by
    rw [assetServeNode, assetServeNode]
    simp only [DNode.elem.injEq, true_and]
    refine ⟨?_, assetServeList_idem base hf cs⟩
    split
    · next ht => exact assetAttrsServe_idem base hf a
    · next ht => rfl

theorem assetServeList_idem (base : UrlT)
    (hf : ∀ v, rwVal base (rwVal base v) = rwVal base v) :
    ∀ ns, assetServeList base (assetServeList base ns) = assetServeList base ns
  | [] => by simp [assetServeList]
  | n :: ns => by
    rw [assetServeList, assetServeList, assetServeNode_idem base hf n,
      assetServeList_idem base hf ns]

end

inductive JsValue where
  | undef : JsValue
  | null : JsValue
  | str (s : String) : JsValue
  | obj (fields : List (String × JsValue)) : JsValue

/-- Property lookup in an object literal; missing keys give `undefined`. -/
def jsField (fields : List (String × JsValue)) (k : String) : JsValue :=
  match fields with
  | [] => .undef
  | (k', v) :: r => if k' = k then v else jsField r k

/-- The JS property access `data.translatedText`: throws on `null`/`undefined`
receivers, yields the field (or `undefined`) otherwise. -/
def getField : JsValue → String → Except Unit JsValue
  | .undef, _ => .error ()
  | .null, _ => .error ()
  | .str _, _ => .ok .undef
  | .obj fs, k => .ok (jsField fs k)

/-- Function `translateText` from the source (lines 85–98): returns
`response.data.translatedText`, and on any caught exception returns the input
text. -/
def translateText (backend : Except Unit JsValue) (text : String) : JsValue :=
  match backend with
  | .error _ => .str text
  | .ok data =>
    match getField data "translatedText" with
    | .error _ => .str text
    | .ok v => v

/-- C4 fails as stated: a malformed 2xx response whose JSON object lacks the
`translatedText` field is a backend failure after which `translateText`
returns JS `undefined`, not the input text (no exception is thrown, so the
`catch` that restores the input never runs). -/
theorem C4_counterexample :
    translateText (.ok (.obj [])) "Hello" = .undef ∧
    translateText (.ok (.obj [])) "Hello" ≠ .str "Hello" :=
  ⟨rfl, fun h => JsValue.noConfusion h⟩

/-- C4 amended: whenever the backend call fails *by throwing* — a network
error, timeout or error status (`.error ()`), or a 2xx body of `null` or
`undefined` (whose property access throws and is caught) — `translateText`
returns exactly the input text; no exception propagates in any case (the
function is total).  A 2xx object without the field instead yields
`undefined`. -/
theorem C4_amended_returns_input (r : Except Unit JsValue) (text : String)
    (h : r = .error () ∨ r = .ok .null ∨ r = .ok .undef) :
    translateText r text = .str text := by
  rcases h with rfl | rfl | rfl <;> rfl

/-- Witness for the amended C4 at a concrete failing backend and text. -/
theorem C4_witness :
    ((Except.error () : Except Unit JsValue) = .error () ∨
      (Except.error () : Except Unit JsValue) = .ok .null ∨
      (Except.error () : Except Unit JsValue) = .ok .undef) ∧
    translateText (.error ()) "Bonjour" = .str "Bonjour" :=
  ⟨Or.inl rfl, C4_amended_returns_input (.error ()) "Bonjour" (Or.inl rfl)⟩

/-! ## The translations table and `POST /api/translate-website`

A `Fragment` is one row of the `translations` table (field names follow the
schema).  The endpoint (lines 704–729) selects the rows with
`translated_text IS NULL` for the website, translates each sequentially, and
runs `UPDATE translations SET translated_text = ?, language = ? WHERE id = ?`.
A string binds as a string and JS `null` binds as SQL `NULL`; binding
`undefined` (or an object) makes better-sqlite3 throw, aborting the loop into
the 500 handler — the `Bool` in the result records whether the run completed. -/

structure Fragment where
  id : Nat
  website_id : Nat
  original_text : String
  translated_text : Option String
  language : String
  path : String
  element_type : String
deriving DecidableEq, Repr

/-- The `SELECT * FROM translations WHERE website_id = ? AND translated_text
IS NULL` query. -/
def findUntranslated (table : List Fragment) (wid : Nat) : List Fragment :=
  table.filter (fun f => f.website_id == wid && f.translated_text.isNone)

/-- The `UPDATE … WHERE id = ?` statement. -/
def updateById (fid : Nat) (tr : Option String) (lang : String)
    (table : List Fragment) : List Fragment :=
  table.map (fun f =>
    if f.id == fid then { f with translated_text := tr, language := lang } else f)

/-- The `for (const item of untranslated)` loop. -/
def runItems (bk : String → Except Unit JsValue) (target : String) :
    List Fragment → List Fragment → List Fragment × Bool
  | table, [] => (table, true)
  | table, item :: rest =>
    match translateText (bk item.original_text) item.original_text with
    | .str s => runItems bk target (updateById item.id (some s) target table) rest
    | .null => runItems bk target (updateById item.id none target table) rest
    | _ => (table, false)

/-- The whole `POST /api/translate-website` handler body. -/
def runTranslateWebsite (bk : String → Except Unit JsValue) (target : String)
    (wid : Nat) (table : List Fragment) : List Fragment × Bool :=
  runItems bk target table (findUntranslated table wid)

/-- C8 fails as stated: a backend 2xx response `{translatedText: null}` makes
`translateText` return `null` (not the original text), the `UPDATE` persists
SQL `NULL`, and the run still completes — but the processed fragment keeps a
null `translated_text` (its `language` even moves to the target), so a later
`findUntranslated` returns it again and it *is* retried. -/
theorem C8_counterexample :
    runTranslateWebsite (fun _ => .ok (.obj [("translatedText", JsValue.null)])) "es" 1
        [⟨1, 1, "Hello", none, "en", "/", "p"⟩]
      = ([⟨1, 1, "Hello", none, "es", "/", "p"⟩], true) ∧
    findUntranslated [⟨1, 1, "Hello", none, "es", "/", "p"⟩] 1
      = [⟨1, 1, "Hello", none, "es", "/", "p"⟩] := by
  constructor
  · rfl
  · rfl

/-- The effect of one item's `UPDATE` on one row. -/
def updOne (bk : String → Except Unit JsValue) (target : String) (it f : Fragment) :
    Fragment :=
  match translateText (bk it.original_text) it.original_text with
  | .str s =>
    if f.id == it.id then { f with translated_text := some s, language := target } else f
  | _ => f

/-- Composite effect of the whole item loop on one row. -/
def chainUpd (bk : String → Except Unit JsValue) (target : String)
    (items : List Fragment) (f : Fragment) : Fragment :=
  items.foldl (fun g it => updOne bk target it g) f

theorem chainUpd_cons (bk : String → Except Unit JsValue) (target : String)
    (it : Fragment) (items : List Fragment) (f : Fragment) :
    chainUpd bk target (it :: items) f = chainUpd bk target items (updOne bk target it f) :=
  rfl

theorem updOne_str (bk : String → Except Unit JsValue) (target : String)
    (it f : Fragment) (s : String)
    (hs : translateText (bk it.original_text) it.original_text = .str s) :
    updOne bk target it f =
      if f.id == it.id then { f with translated_text := some s, language := target }
      else f := by
  rw [updOne, hs]

theorem runItems_as_map (bk : String → Except Unit JsValue) (target : String) :
    ∀ (items table : List Fragment),
    (∀ it ∈ items, ∃ s, translateText (bk it.original_text) it.original_text = .str s) →
    runItems bk target table items = (table.map (chainUpd bk target items), true)
  | [], table, _ => by
    have h : List.map (chainUpd bk target []) table = table := by
      induction table with
      | nil => rfl
      | cons f t ih =>
        simp only [List.map_cons, ih]
        rfl
    rw [runItems, h]
  | it :: rest, table, hbk => by
    obtain ⟨s, hs⟩ := hbk it (List.mem_cons_self _ _)
    have hstep : runItems bk target table (it :: rest)
        = runItems bk target (updateById it.id (some s) target table) rest := by
      rw [runItems, hs]
    rw [hstep,
      runItems_as_map bk target rest _ (fun i hi => hbk i (List.mem_cons_of_mem _ hi))]
    simp only [Prod.mk.injEq, and_true]
    simp only [updateById, List.map_map]
    apply map_congr_mem
    intro f _
    simp only [Function.comp, chainUpd_cons]
    rw [updOne_str bk target it f s hs]

theorem updOne_fields (bk : String → Except Unit JsValue) (target : String)
    (it f : Fragment) :
    (updOne bk target it f).id = f.id ∧
    (updOne bk target it f).website_id = f.website_id ∧
    (updOne bk target it f).original_text = f.original_text := by
  rw [updOne]
  split
  · split
    · exact ⟨rfl, rfl, rfl⟩
    · exact ⟨rfl, rfl, rfl⟩
  · exact ⟨rfl, rfl, rfl⟩

theorem updOne_keeps_some (bk : String → Except Unit JsValue) (target : String)
    (it f : Fragment) (h : f.translated_text ≠ none) :
    (updOne bk target it f).translated_text ≠ none := by
  rw [updOne]
  split
  · split
    · simp
    · exact h
  · exact h

theorem chainUpd_fields (bk : String → Except Unit JsValue) (target : String)
    (items : List Fragment) : ∀ f,
    (chainUpd bk target items f).id = f.id ∧
    (chainUpd bk target items f).website_id = f.website_id ∧
    (chainUpd bk target items f).original_text = f.original_text := by
  induction items with
  | nil => exact fun f => ⟨rfl, rfl, rfl⟩
  | cons it items ih =>
    intro f
    rw [chainUpd_cons]
    obtain ⟨h1, h2, h3⟩ := ih (updOne bk target it f)
    obtain ⟨g1, g2, g3⟩ := updOne_fields bk target it f
    exact ⟨h1.trans g1, h2.trans g2, h3.trans g3⟩

theorem chainUpd_keeps_some (bk : String → Except Unit JsValue) (target : String)
    (items : List Fragment) : ∀ f, f.translated_text ≠ none →
    (chainUpd bk target items f).translated_text ≠ none := by
  induction items with
  | nil => exact fun f h => h
  | cons it items ih =>
    intro f h
    rw [chainUpd_cons]
    exact ih _ (updOne_keeps_some bk target it f h)

theorem chainUpd_hits (bk : String → Except Unit JsValue) (target : String)
    (items : List Fragment)
    (hbk : ∀ it ∈ items, ∃ s, translateText (bk it.original_text) it.original_text = .str s) :
    ∀ f, (∃ it ∈ items, it.id = f.id) →
    (chainUpd bk target items f).translated_text ≠ none := by
  induction items with
  | nil => rintro f ⟨it, hit, _⟩; cases hit
  | cons it items ih =>
    rintro f ⟨it', hit', hid⟩
    rw [chainUpd_cons]
    rcases List.mem_cons.1 hit' with rfl | hmem
    · obtain ⟨s, hs⟩ := hbk it' (List.mem_cons_self _ _)
      apply chainUpd_keeps_some
      rw [updOne_str bk target it' f s hs, if_pos (by simpa using hid.symm)]
      simp
    · by_cases hsame : f.id = it.id
      · obtain ⟨s, hs⟩ := hbk it (List.mem_cons_self _ _)
        apply chainUpd_keeps_some
        rw [updOne_str bk target it f s hs, if_pos (by simpa using hsame)]
        simp
      · apply ih (fun i hi => hbk i (List.mem_cons_of_mem _ hi))
        refine ⟨it', hmem, ?_⟩
        rw [hid]
        exact ((updOne_fields bk target it f).1).symm

theorem chainUpd_untouched (bk : String → Except Unit JsValue) (target : String)
    (items : List Fragment) : ∀ f, (∀ it ∈ items, f.id ≠ it.id) →
    chainUpd bk target items f = f := by
  induction items with
  | nil => exact fun f _ => rfl
  | cons it items ih =>
    intro f h
    rw [chainUpd_cons]
    have hone : updOne bk target it f = f := by
      rw [updOne]
      split
      · rw [if_neg (by simpa using h it (List.mem_cons_self _ _))]
      · rfl
    rw [hone]
    exact ih f (fun i hi => h i (List.mem_cons_of_mem _ hi))

theorem chainUpd_last_write (bk : String → Except Unit JsValue) (target : String) :
    ∀ (items : List Fragment), (items.map Fragment.id).Nodup →
    ∀ item ∈ items, ∀ s,
    translateText (bk item.original_text) item.original_text = .str s →
    ∀ f, f.id = item.id →
    (chainUpd bk target items f).translated_text = some s ∧
    (chainUpd bk target items f).language = target := by
  intro items
  induction items with
  | nil => intro _ item hit; cases hit
  | cons it items ih =>
    intro hnd item hitem s hs f hf
    rcases List.mem_cons.1 hitem with rfl | hmem
    · rw [chainUpd_cons]
      have hupd : updOne bk target item f =
          { f with translated_text := some s, language := target } := by
        rw [updOne_str bk target item f s hs, if_pos (by simpa using hf)]
      rw [hupd]
      rw [chainUpd_untouched bk target items _ (fun i hi => by
        simp only [List.map_cons, List.nodup_cons] at hnd
        intro he
        have he' : f.id = i.id := he
        exact hnd.1 (by
          rw [hf.symm.trans he']
          exact List.mem_map_of_mem Fragment.id hi))]
      exact ⟨rfl, rfl⟩
    · rw [chainUpd_cons]
      have hne : f.id ≠ it.id := by
        rw [hf]
        simp only [List.map_cons, List.nodup_cons] at hnd
        intro he
        exact hnd.1 (by
          rw [← he]
          exact List.mem_map_of_mem Fragment.id hmem)
      have hone : updOne bk target it f = f := by
        rw [updOne]
        split
        · rw [if_neg (by simpa using hne)]
        · rfl
      rw [hone]
      exact ih (by
        simp only [List.map_cons, List.nodup_cons] at hnd
        exact hnd.2) item hmem s hs f hf

/-- C8 amended: provided every backend response is either a thrown failure or
carries a string `translatedText` — so `translateText` always returns a
string — a `POST /api/translate-website` run completes, every fragment it
processed ends with a non-null `translated_text` (a thrown backend failure
persists the original text itself as the translation), `findUntranslated`
afterwards returns nothing for that site, and a second run is a no-op (a
failed translation is never retried).  A 2xx response with a null or missing
`translatedText` breaks this (see the counterexample). -/
theorem C8_amended_translate_run (bk : String → Except Unit JsValue) (target : String)
    (wid : Nat) (table : List Fragment)
    (hbk : ∀ t, ∃ s, translateText (bk t) t = JsValue.str s)
    (hnd : (table.map Fragment.id).Nodup) :
    ∃ final, runTranslateWebsite bk target wid table = (final, true) ∧
      findUntranslated final wid = [] ∧
      (∀ item ∈ findUntranslated table wid, bk item.original_text = .error () →
        ∀ f ∈ final, f.id = item.id →
          f.translated_text = some item.original_text ∧ f.language = target) ∧
      runTranslateWebsite bk target wid final = (final, true) := by
  have hbkItems : ∀ it ∈ findUntranslated table wid,
      ∃ s, translateText (bk it.original_text) it.original_text = .str s :=
    fun it _ => hbk it.original_text
  have hrun : runTranslateWebsite bk target wid table
      = (table.map (chainUpd bk target (findUntranslated table wid)), true) := by
    rw [runTranslateWebsite]
    exact runItems_as_map bk target (findUntranslated table wid) table hbkItems
  refine ⟨table.map (chainUpd bk target (findUntranslated table wid)), hrun, ?_, ?_, ?_⟩
  · rw [List.eq_nil_iff_forall_not_mem]
    intro f' hf'
    rw [findUntranslated, List.mem_filter] at hf'
    obtain ⟨hmem, hprop⟩ := hf'
    simp only [Bool.and_eq_true, beq_iff_eq, Option.isNone_iff_eq_none] at hprop
    obtain ⟨g, hg, rfl⟩ := List.mem_map.1 hmem
    obtain ⟨_, hwid, _⟩ := chainUpd_fields bk target (findUntranslated table wid) g
    by_cases hgnone : g.translated_text = none
    · have hgitems : g ∈ findUntranslated table wid := by
        rw [findUntranslated, List.mem_filter]
        exact ⟨hg, by simp [hgnone, hwid ▸ hprop.1]⟩
      exact chainUpd_hits bk target _ hbkItems g ⟨g, hgitems, rfl⟩ hprop.2
    · exact chainUpd_keeps_some bk target _ g hgnone hprop.2
  · intro item hitem herr f hf hfid
    obtain ⟨g, hg, rfl⟩ := List.mem_map.1 hf
    have hs : translateText (bk item.original_text) item.original_text
        = .str item.original_text := by rw [herr]; rfl
    have hndItems : ((findUntranslated table wid).map Fragment.id).Nodup :=
      ((List.filter_sublist table).map Fragment.id).nodup hnd
    have hgid : g.id = item.id :=
      ((chainUpd_fields bk target (findUntranslated table wid) g).1).symm.trans hfid
    exact chainUpd_last_write bk target (findUntranslated table wid) hndItems item hitem
      item.original_text hs g hgid
  · have h0 : findUntranslated
        (table.map (chainUpd bk target (findUntranslated table wid))) wid = [] := by
      rw [List.eq_nil_iff_forall_not_mem]
      intro f' hf'
      rw [findUntranslated, List.mem_filter] at hf'
      obtain ⟨hmem, hprop⟩ := hf'
      simp only [Bool.and_eq_true, beq_iff_eq, Option.isNone_iff_eq_none] at hprop
      obtain ⟨g, hg, rfl⟩ := List.mem_map.1 hmem
      obtain ⟨_, hwid, _⟩ := chainUpd_fields bk target (findUntranslated table wid) g
      by_cases hgnone : g.translated_text = none
      · have hgitems : g ∈ findUntranslated table wid := by
          rw [findUntranslated, List.mem_filter]
          exact ⟨hg, by simp [hgnone, hwid ▸ hprop.1]⟩
        exact chainUpd_hits bk target _ hbkItems g ⟨g, hgitems, rfl⟩ hprop.2
      · exact chainUpd_keeps_some bk target _ g hgnone hprop.2
    rw [runTranslateWebsite, h0]
    rfl

/-- Demo table for the C8 witness: two fragments of website 1 (one already
translated) and one fragment of website 2. -/
def demoTable : List Fragment :=
  [⟨1, 1, "Hello", none, "en", "/", "p"⟩,
   ⟨2, 1, "World", some "Mundo", "es", "/", "span"⟩,
   ⟨3, 2, "Other", none, "en", "/", "p"⟩]

/-- Always-throwing demo backend. -/
def demoBk : String → Except Unit JsValue := fun _ => .error ()

/-- Witness for the amended C8: an always-throwing backend on the demo
table. -/
theorem C8_witness :
    (∀ t, ∃ s, translateText (demoBk t) t = JsValue.str s) ∧
    ((demoTable.map Fragment.id).Nodup) ∧
    (∃ final, runTranslateWebsite demoBk "es" 1 demoTable = (final, true) ∧
      findUntranslated final 1 = [] ∧
      (∀ item ∈ findUntranslated demoTable 1, demoBk item.original_text = .error () →
        ∀ f ∈ final, f.id = item.id →
          f.translated_text = some item.original_text ∧ f.language = "es") ∧
      runTranslateWebsite demoBk "es" 1 final = (final, true)) :=
  ⟨fun t => ⟨t, rfl⟩, by decide,
    C8_amended_translate_run demoBk "es" 1 demoTable (fun t => ⟨t, rfl⟩) (by decide)⟩

/-- Witness for the amended C5 on a concrete document and base. -/
theorem C5_witness :
    (demoBase.hostname ≠ "" ∧ startsWithS demoBase.pathname "/" = true ∧
      "/about" ∈ getPageLinks demoLinksDoc demoBase) ∧
    (startsWithS "/about" "mailto:" = false ∧ startsWithS "/about" "tel:" = false ∧
      startsWithS "/about" "#" = false ∧ startsWithS "/about" "javascript:" = false ∧
      bannedExt "/about" = false ∧ hasCharL '@' "/about".data = false ∧
      schemeLikeL "/about".data = false ∧ startsWithS "/about" "/" = true ∧
      ∃ href ∈ collectHrefsList demoLinksDoc, ∃ u, resolveUrl href demoBase = some u ∧
        u.hostname = demoBase.hostname ∧ "/about" = u.pathname) :=
  ⟨⟨by decide, by decide, by decide⟩,
    C5_amended_link_filter demoLinksDoc demoBase (by decide) (by decide) "/about" (by decide)⟩

/-! ## The crawl of `POST /api/map-website`

Lines 533–603 of `index.js`.  The page fetch plus parsing plus
`getPageLinks` is an oracle `g : String → Option PageData`, `none` standing
for a fetch/parse failure on that path (`catch` logs and continues).  The
frontier `pagesQueue` and `visitedPages` are JS `Set`s, modelled as
duplicate-free lists in insertion order: `Array.from(set)[0]` is the list
head, `set.add` is `setAdd`, `set.delete` of the head is the tail.  The loop
is fuel-indexed; since every iteration under the loop's own invariants grows
the visited set, fuel `21` always suffices for the cap of `20`. -/

structure PageData where
  title : String
  textCount : Nat
  links : List String
deriving DecidableEq, Repr

structure FoundPage where
  path : String
  title : String
  textCount : Nat
deriving DecidableEq, Repr

/-- The `links.forEach(link => { if (!visitedPages.has(link))
pagesQueue.add(link); })` loop. -/
def enqueueLinks (visited queue : List String) (links : List String) : List String :=
  links.foldl (fun q l => if l ∈ visited then q else setAdd q l) queue

/-- The `while (pagesQueue.size > 0 && visitedPages.size < maxPages)` loop of
`POST /api/map-website` with `maxPages = 20`:  pop the oldest frontier entry,
skip it if visited, mark it visited, fetch it (a failure is logged and the
loop continues), record `(path, title || path, textCount)`, and enqueue the
unvisited links. -/
def crawl (g : String → Option PageData) :
    Nat → List String → List String → List FoundPage →
    Option (List String × List FoundPage)
  | 0, _, _, _ => none
  | fuel + 1, queue, visited, found =>
    match queue with
    | [] => some (visited, found)
    | c :: rest =>
      if 20 ≤ visited.length then some (visited, found)
      else if c ∈ visited then crawl g fuel rest visited found
      else
        match g c with
        | some pg =>
          crawl g fuel (enqueueLinks (visited ++ [c]) rest pg.links) (visited ++ [c])
            (found ++ [⟨c, if pg.title = "" then c else pg.title, pg.textCount⟩])
        | none => crawl g fuel rest (visited ++ [c]) found

/-- Reachability in the link graph induced by the fetch oracle: the seed is
reachable, and so is every link of a successfully fetched reachable page
(pages that fail to fetch are reachable leaves). -/
inductive Reach (g : String → Option PageData) (seed : String) : String → Prop where
  | refl : Reach g seed seed
  | step {p : String} {pg : PageData} {l : String} :
      Reach g seed p → g p = some pg → l ∈ pg.links → Reach g seed l

theorem reach_mem_of_closed (g : String → Option PageData) (seed : String)
    (V : List String) (hs : seed ∈ V)
    (hc : ∀ p ∈ V, ∀ pg, g p = some pg → ∀ l ∈ pg.links, l ∈ V) :
    ∀ q, Reach g seed q → q ∈ V := by
  intro q h
  induction h with
  | refl => exact hs
  | step _ hg hl ih => exact hc _ ih _ hg _ hl

theorem nodup_append_singleton (l : List String) (x : String)
    (h : l.Nodup) (hx : x ∉ l) : (l ++ [x]).Nodup := by
  simp only [List.nodup_append, List.nodup_cons, List.not_mem_nil, not_false_iff,
    List.nodup_nil, and_true, true_and]
  exact ⟨h, fun a ha => by
    simp only [List.mem_singleton]
    rintro rfl
    exact hx ha⟩

theorem setAdd_nodup (l : List String) (x : String) (h : l.Nodup) :
    (setAdd l x).Nodup := by
  rw [setAdd]
  split
  · exact h
  · next hx => exact nodup_append_singleton l x h hx

theorem mem_enqueueLinks (visited : List String) :
    ∀ (links queue : List String) (p : String),
      p ∈ enqueueLinks visited queue links ↔ p ∈ queue ∨ (p ∈ links ∧ p ∉ visited)
  | [], queue, p => by simp [enqueueLinks]
  | l :: ls, queue, p => by
    rw [show enqueueLinks visited queue (l :: ls)
        = enqueueLinks visited (if l ∈ visited then queue else setAdd queue l) ls from rfl]
    rw [mem_enqueueLinks visited ls _ p]
    split
    · next hl =>
      simp only [List.mem_cons]
      constructor
      · rintro (h | ⟨h1, h2⟩)
        · exact Or.inl h
        · exact Or.inr ⟨Or.inr h1, h2⟩
      · rintro (h | ⟨rfl | h1, h2⟩)
        · exact Or.inl h
        · exact absurd hl h2
        · exact Or.inr ⟨h1, h2⟩
    · next hl =>
      rw [mem_setAdd]
      simp only [List.mem_cons]
      constructor
      · rintro ((h | rfl) | ⟨h1, h2⟩)
        · exact Or.inl h
        · exact Or.inr ⟨Or.inl rfl, hl⟩
        · exact Or.inr ⟨Or.inr h1, h2⟩
      · rintro (h | ⟨rfl | h1, h2⟩)
        · exact Or.inl (Or.inl h)
        · exact Or.inl (Or.inr rfl)
        · exact Or.inr ⟨h1, h2⟩

theorem enqueueLinks_nodup (visited : List String) :
    ∀ (links queue : List String), queue.Nodup → (enqueueLinks visited queue links).Nodup
  | [], queue, h => h
  | l :: ls, queue, h => by
    rw [show enqueueLinks visited queue (l :: ls)
        = enqueueLinks visited (if l ∈ visited then queue else setAdd queue l) ls from rfl]
    apply enqueueLinks_nodup
    split
    · exact h
    · exact setAdd_nodup queue l h

theorem nodup_length_le (l l' : List String) (h : l.Nodup) (hs : ∀ p ∈ l, p ∈ l') :
    l.length ≤ l'.length := by
  have h1 : l.toFinset.card = l.length := List.toFinset_card_of_nodup h
  have h2 : l.toFinset ⊆ l'.toFinset := by
    intro x hx
    rw [List.mem_toFinset] at hx ⊢
    exact hs x hx
  calc l.length = l.toFinset.card := h1.symm
    _ ≤ l'.toFinset.card := Finset.card_le_card h2
    _ ≤ l'.length := l'.toFinset_card_le

/-- Main invariant lemma for the crawl loop: assuming the frontier/visited
invariants, the crawl completes within the given fuel, visits no path twice,
stays inside the reachable set `R`, and either hits the cap of 20 or covers
all of `R`; pages recorded in the result all fetched successfully. -/
theorem crawl_go (g : String → Option PageData) (seed : String) (R : List String)
    (hcl : ∀ p ∈ R, ∀ pg, g p = some pg → ∀ l ∈ pg.links, l ∈ R)
    (hmin : ∀ p ∈ R, Reach g seed p) :
    ∀ (fuel : Nat) (queue visited : List String) (found : List FoundPage),
    visited.Nodup → queue.Nodup →
    (∀ q ∈ queue, q ∉ visited) →
    (∀ p ∈ visited, p ∈ R) → (∀ q ∈ queue, q ∈ R) →
    (seed ∈ visited ∨ seed ∈ queue) →
    (∀ p ∈ visited, ∀ pg, g p = some pg → ∀ l ∈ pg.links, l ∈ visited ∨ l ∈ queue) →
    visited.length ≤ 20 →
    (∀ fp ∈ found, g fp.path ≠ none) →
    21 ≤ fuel + visited.length →
    ∃ vis fnd, crawl g fuel queue visited found = some (vis, fnd) ∧
      vis.Nodup ∧ (∀ p ∈ vis, p ∈ R) ∧ vis.length ≤ 20 ∧
      (vis.length = 20 ∨ ∀ p ∈ R, p ∈ vis) ∧
      (∀ fp ∈ fnd, g fp.path ≠ none) := by
  intro fuel
  induction fuel with
  | zero =>
    intro queue visited found _ _ _ _ _ _ _ hlen _ hfuel
    omega
  | succ fuel ih =>
    intro queue visited found hnv hnq hdisj hvR hqR hseed hfront hlen hfound hfuel
    cases queue with
    | nil =>
      refine ⟨visited, found, rfl, hnv, hvR, hlen, Or.inr ?_, hfound⟩
      intro p hp
      refine reach_mem_of_closed g seed visited ?_ ?_ p (hmin p hp)
      · rcases hseed with h | h
        · exact h
        · cases h
      · intro p' hp' pg hpg l hl
        rcases hfront p' hp' pg hpg l hl with h | h
        · exact h
        · cases h
    | cons c rest =>
      by_cases hcap : 20 ≤ visited.length
      · refine ⟨visited, found, ?_, hnv, hvR, hlen, Or.inl (le_antisymm hlen hcap), hfound⟩
        rw [crawl, if_pos hcap]
      · have hcnv : c ∉ visited := hdisj c (List.mem_cons_self _ _)
        have hcR : c ∈ R := hqR c (List.mem_cons_self _ _)
        have hnv' : (visited ++ [c]).Nodup := nodup_append_singleton visited c hnv hcnv
        have hrestnd : rest.Nodup := hnq.of_cons
        have hcrest : c ∉ rest := (List.nodup_cons.1 hnq).1
        have hvR' : ∀ p ∈ visited ++ [c], p ∈ R := by
          intro p hp
          rcases List.mem_append.1 hp with h | h
          · exact hvR p h
          · rw [List.mem_singleton] at h
            exact h ▸ hcR
        have hlen' : (visited ++ [c]).length ≤ 20 := by
          simp only [List.length_append, List.length_singleton]
          omega
        have hfuel' : 21 ≤ fuel + (visited ++ [c]).length := by
          simp only [List.length_append, List.length_singleton]
          omega
        rcases hg : g c with _ | pg
        · -- fetch failure: path counted as visited, excluded from results
          obtain ⟨vis, fnd, heq, h1, h2, h3, h4, h5⟩ :=
            ih rest (visited ++ [c]) found hnv' hrestnd
              (by
                intro q hq
                simp only [List.mem_append, List.mem_singleton]
                rintro (h | rfl)
                · exact hdisj q (List.mem_cons_of_mem _ hq) h
                · exact hcrest hq)
              hvR' (fun q hq => hqR q (List.mem_cons_of_mem _ hq))
              (by
                rcases hseed with h | h
                · exact Or.inl (List.mem_append_left _ h)
                · rcases List.mem_cons.1 h with rfl | h
                  · exact Or.inl (List.mem_append_right _ (List.mem_singleton.2 rfl))
                  · exact Or.inr h)
              (by
                intro p hp pg' hpg l hl
                rcases List.mem_append.1 hp with h | h
                · rcases hfront p h pg' hpg l hl with h' | h'
                  · exact Or.inl (List.mem_append_left _ h')
                  · rcases List.mem_cons.1 h' with rfl | h'
                    · exact Or.inl (List.mem_append_right _ (List.mem_singleton.2 rfl))
                    · exact Or.inr h'
                · rw [List.mem_singleton] at h
                  subst h
                  rw [hg] at hpg
                  cases hpg)
              hlen' hfound hfuel'
          exact ⟨vis, fnd, by rw [crawl, if_neg hcap, if_neg hcnv, hg]; exact heq,
            h1, h2, h3, h4, h5⟩
        · -- fetch success: record the page and enqueue the unvisited links
          obtain ⟨vis, fnd, heq, h1, h2, h3, h4, h5⟩ :=
            ih (enqueueLinks (visited ++ [c]) rest pg.links) (visited ++ [c])
              (found ++ [⟨c, if pg.title = "" then c else pg.title, pg.textCount⟩])
              hnv' (enqueueLinks_nodup _ _ _ hrestnd)
              (by
                intro q hq
                rcases (mem_enqueueLinks _ _ _ q).1 hq with h | ⟨_, h2⟩
                · simp only [List.mem_append, List.mem_singleton]
                  rintro (h' | rfl)
                  · exact hdisj q (List.mem_cons_of_mem _ h) h'
                  · exact hcrest h
                · exact h2)
              hvR'
              (by
                intro q hq
                rcases (mem_enqueueLinks _ _ _ q).1 hq with h | ⟨h1, _⟩
                · exact hqR q (List.mem_cons_of_mem _ h)
                · exact hcl c hcR pg hg q h1)
              (by
                rcases hseed with h | h
                · exact Or.inl (List.mem_append_left _ h)
                · rcases List.mem_cons.1 h with rfl | h
                  · exact Or.inl (List.mem_append_right _ (List.mem_singleton.2 rfl))
                  · exact Or.inr ((mem_enqueueLinks _ _ _ _).2 (Or.inl h)))
              (by
                intro p hp pg' hpg l hl
                rcases List.mem_append.1 hp with h | h
                · rcases hfront p h pg' hpg l hl with h' | h'
                  · exact Or.inl (List.mem_append_left _ h')
                  · rcases List.mem_cons.1 h' with rfl | h'
                    · exact Or.inl (List.mem_append_right _ (List.mem_singleton.2 rfl))
                    · exact Or.inr ((mem_enqueueLinks _ _ _ _).2 (Or.inl h'))
                · rw [List.mem_singleton] at h
                  rw [h, hg] at hpg
                  injection hpg with hpg
                  subst hpg
                  by_cases hlv : l ∈ visited ++ [c]
                  · exact Or.inl hlv
                  · exact Or.inr ((mem_enqueueLinks _ _ _ _).2 (Or.inr ⟨hl, hlv⟩)))
              hlen'
              (by
                intro fp hfp
                rcases List.mem_append.1 hfp with h | h
                · exact hfound fp h
                · rw [List.mem_singleton] at h
                  subst h
                  simp only
                  rw [hg]
                  exact fun h => Option.noConfusion h)
              hfuel'
          exact ⟨vis, fnd, by rw [crawl, if_neg hcap, if_neg hcnv, hg]; exact heq,
            h1, h2, h3, h4, h5⟩

/-- C1: for every finite link graph — given as a duplicate-free list `R` of
exactly the pages reachable from the seed, failing pages included as leaves —
the crawl of `POST /api/map-website` with page cap 20 terminates with fuel
21, never adds a path to the visited set twice, ends with exactly
`min 20 R.length` visited paths, and a path whose fetch fails (while counted
as visited) never appears in the returned pages list. -/
theorem C1_crawl_visits_min_cap (g : String → Option PageData) (seed : String)
    (R : List String) (hnd : R.Nodup) (hseed : seed ∈ R)
    (hcl : ∀ p ∈ R, ∀ pg, g p = some pg → ∀ l ∈ pg.links, l ∈ R)
    (hmin : ∀ p ∈ R, Reach g seed p) :
    ∃ vis found, crawl g 21 [seed] [] [] = some (vis, found) ∧
      vis.Nodup ∧ vis.length = min 20 R.length ∧
      ∀ p ∈ vis, g p = none → p ∉ found.map FoundPage.path := by
  obtain ⟨vis, fnd, heq, hvnd, hvR, hle, hcase, hfnd⟩ :=
    crawl_go g seed R hcl hmin 21 [seed] [] []
      (by simp) (by simp) (by simp) (by simp) (by simpa using hseed)
      (Or.inr (by simp)) (by simp) (by simp) (by simp) (by simp)
  refine ⟨vis, fnd, heq, hvnd, ?_, ?_⟩
  · rcases hcase with h20 | hcover
    · have hR20 : 20 ≤ R.length := h20 ▸ nodup_length_le vis R hvnd hvR
      rw [h20, min_eq_left hR20]
    · have h1 := nodup_length_le vis R hvnd hvR
      have h2 := nodup_length_le R vis hnd hcover
      have heqlen : vis.length = R.length := le_antisymm h1 h2
      rw [heqlen, min_eq_right (heqlen ▸ hle)]
  · intro p hp hgp hmap
    obtain ⟨fp, hfp, hfppath⟩ := List.mem_map.1 hmap
    exact hfnd fp hfp (by rw [hfppath]; exact hgp)

/-- Demo link graph for the crawl witness: the spec scenario
`{"/": ["/a", "/b"], "/a": [], "/b": ["/a"]}`. -/
def demoGraph : String → Option PageData := fun p =>
  if p = "/" then some ⟨"Home", 24, ["/a", "/b"]⟩
  else if p = "/a" then some ⟨"Page A", 10, []⟩
  else if p = "/b" then some ⟨"Page B", 12, ["/a"]⟩
  else none

/-- The reachable pages of `demoGraph` from `/`. -/
def demoR : List String := ["/", "/a", "/b"]

/-- Witness for C1 on the spec's own scenario: seed `/`, three reachable
pages, cap not reached. -/
theorem C1_witness :
    (demoR.Nodup ∧ "/" ∈ demoR) ∧
    (∃ vis found, crawl demoGraph 21 ["/"] [] [] = some (vis, found) ∧
      vis.Nodup ∧ vis.length = min 20 demoR.length ∧
      ∀ p ∈ vis, demoGraph p = none → p ∉ found.map FoundPage.path) :=
  ⟨⟨by decide, by decide⟩,
    C1_crawl_visits_min_cap demoGraph "/" demoR (by decide) (by decide)
      (by
        intro p hp pg hpg l hl
        fin_cases hp <;> simp [demoGraph] at hpg <;> subst hpg <;>
          simp [demoR] at hl ⊢ <;> tauto)
      (by
        intro p hp
        fin_cases hp
        · exact Reach.refl
        · exact Reach.step Reach.refl (show demoGraph "/" = some ⟨"Home", 24, ["/a", "/b"]⟩
            from by decide) (by simp)
        · exact Reach.step Reach.refl (show demoGraph "/" = some ⟨"Home", 24, ["/a", "/b"]⟩
            from by decide) (by simp))⟩

/-- Demo graph where breadth-first insertion order is observable: `/` links
to `/b` before `/a`, and `/b` links on to `/c`. -/
def demoGraph9 : String → Option PageData := fun p =>
  if p = "/" then some ⟨"Home", 20, ["/b", "/a"]⟩
  else if p = "/a" then some ⟨"A", 5, []⟩
  else if p = "/b" then some ⟨"B", 6, ["/c"]⟩
  else if p = "/c" then some ⟨"C", 7, []⟩
  else none

/-- C9: the crawl frontier is processed deterministically in insertion order.
First, the crawl is a pure function of the fetch oracle: two runs over
extensionally equal oracles return identical results (same visited paths,
same order, same page list).  Second, on a concrete graph whose seed links to
`/b` before `/a`, the visited list is exactly the breadth-first
insertion-order sequence `/,  /b, /a, /c` — the head of the frontier list
(the oldest-inserted `Set` element, `Array.from(pagesQueue)[0]`) is always
processed next. -/
theorem C9_deterministic_insertion_order :
    (∀ (g1 g2 : String → Option PageData) (fuel : Nat)
      (queue visited : List String) (found : List FoundPage),
      (∀ p, g1 p = g2 p) →
      crawl g1 fuel queue visited found = crawl g2 fuel queue visited found) ∧
    crawl demoGraph9 21 ["/"] [] []
      = some (["/", "/b", "/a", "/c"],
        [⟨"/", "Home", 20⟩, ⟨"/b", "B", 6⟩, ⟨"/a", "A", 5⟩, ⟨"/c", "C", 7⟩]) := by
  constructor
  · intro g1 g2 fuel queue visited found h
    rw [funext h]
  · rfl

/-- Witness for C9's determinism conjunct at a concrete oracle and state. -/
theorem C9_witness :
    (∀ p, demoGraph9 p = demoGraph9 p) ∧
    crawl demoGraph9 21 ["/"] [] [] = crawl demoGraph9 21 ["/"] [] [] :=
  ⟨fun _ => rfl,
    C9_deterministic_insertion_order.1 demoGraph9 demoGraph9 21 ["/"] [] []
      (fun _ => rfl)⟩

/-! ## The view handlers

Each handler takes its collaborators as oracles — `websites` is
`findWebsite.get` (domain to website id), `fetch` is `axios.get` returning a
parsed document or a thrown failure, `tlookup` is the
`SELECT original_text, translated_text, element_type …` query and
`textLookup` the by-text `getTranslation.get` — and returns the list of
upstream URLs it fetched together with the HTTP response. -/

structure HResp where
  status : Nat
  body : String
deriving DecidableEq, Repr

/-- The `req.query.lang || 'en'` default (JS `||` also treats the empty
string as absent). -/
def langDefault (lp : Option String) : String :=
  match lp with
  | none => "en"
  | some l => if l = "" then "en" else l

mutual

/-- Generic per-element attribute pass: rewrites each element's attribute
list through `g` (which sees the tag) and recurses; tags, text and structure
are untouched. -/
def mapAttrsNode (g : String → List (String × String) → List (String × String)) :
    DNode → DNode
  | .text v => .text v
  | .raw v => .raw v
  | .elem t a cs => .elem t (g t a) (mapAttrsList g cs)

def mapAttrsList (g : String → List (String × String) → List (String × String)) :
    List DNode → List DNode
  | [] => []
  | n :: ns => mapAttrsNode g n :: mapAttrsList g ns

end

/-- The proxy link `/view/${domain}${pathname}${search}?lang=${language}`. -/
def viewLink (domain lang : String) (u : UrlT) : String :=
  "/view/" ++ domain ++ u.pathname ++ u.search ++ "?lang=" ++ lang

/-- Internal-link rewriting of `GET /view/:domain` (index.js lines 315–327,
identical in both `part_000` handlers): any truthy href that resolves to the
site's hostname is pointed back through the proxy. -/
def lrValRoot (domain lang : String) (base : UrlT) (href : String) : String :=
  if href = "" then href
  else
    match resolveUrl href base with
    | none => href
    | some u => if u.hostname = domain then viewLink domain lang u else href

/-- Internal-link rewriting of `serveTranslatedWebsite` (lines 191–205): as
`lrValRoot` but skipping fragment-only hrefs. -/
def lrValServe (domain lang : String) (base : UrlT) (href : String) : String :=
  if href = "" then href
  else if startsWithS href "#" then href
  else
    match resolveUrl href base with
    | none => href
    | some u => if u.hostname = domain then viewLink domain lang u else href

/-- The `$('a').each(…)` link loop with rewriter `f`. -/
def mapAnchorHrefList (f : String → String) (doc : List DNode) : List DNode :=
  mapAttrsList (fun t a => if t = "a" then updAttr "href" f a else a) doc

/-! Asset rewriting of the root handlers (index.js lines 330–341, likewise in
`part_000`): tags `img, script, link`, value `$el.attr('src') ||
$el.attr('href')`, no `data:` exception and *no* try/catch — a URL-resolution
failure aborts the whole handler into its 500 branch, modelled with
`Except`. -/

/-- JS `a || b` over attribute reads (`undefined` and `""` are falsy). -/
def jsOrAttr (a b : Option String) : Option String :=
  match a with
  | some v => if v = "" then b else some v
  | none => b

/-- Truthiness of `$el.attr(k)`. -/
def attrTruthy (a : List (String × String)) (k : String) : Bool :=
  match getAttr a k with
  | some v => !(v == "")
  | none => false

def assetRootTags : List String := ["img", "script", "link"]

/-- One element's `src`/`href` absolutisation in the root handlers. -/
def assetRootAttrs (base : UrlT) (a : List (String × String)) :
    Except String (List (String × String)) :=
  match jsOrAttr (getAttr a "src") (getAttr a "href") with
  | none => .ok a
  | some v =>
    if v = "" then .ok a
    else if startsWithS v "http" then .ok a
    else
      match resolveUrl v base with
      | none => .error "Invalid URL"
      | some u =>
        .ok (if attrTruthy a "src" then updAttr "src" (fun _ => urlHref u) a
          else updAttr "href" (fun _ => urlHref u) a)

mutual

def assetRootNode (base : UrlT) : DNode → Except String DNode
  | .text v => .ok (.text v)
  | .raw v => .ok (.raw v)
  | .elem t a cs =>
    match (if t ∈ assetRootTags then assetRootAttrs base a else .ok a) with
    | .error e => .error e
    | .ok a' =>
      match assetRootList base cs with
      | .error e => .error e
      | .ok cs' => .ok (.elem t a' cs')

def assetRootList (base : UrlT) : List DNode → Except String (List DNode)
  | [] => .ok []
  | n :: ns =>
    match assetRootNode base n with
    | .error e => .error e
    | .ok n' =>
      match assetRootList base ns with
      | .error e => .error e
      | .ok ns' => .ok (n' :: ns')

end

/-! Pieces of `serveTranslatedWebsite`'s style/wrapper surgery. -/

mutual

/-- The `$('style, link[rel="stylesheet"]').each(… clone …)` collection. -/
def collectStylesNode : DNode → List DNode
  | .text _ => []
  | .raw _ => []
  | .elem t a cs =>
    (if t = "style" ∨ (t = "link" ∧ getAttr a "rel" = some "stylesheet") then
      [DNode.elem t a cs]
    else []) ++ collectStylesList cs

def collectStylesList : List DNode → List DNode
  | [] => []
  | n :: ns => collectStylesNode n ++ collectStylesList ns

end

mutual

/-- The `$('body').wrapInner('<div class="website-translation-wrapper">')`
step. -/
def wrapBodyNode : DNode → DNode
  | .text v => .text v
  | .raw v => .raw v
  | .elem t a cs =>
    if t = "body" then
      .elem t a [DNode.elem "div" [("class", "website-translation-wrapper")] cs]
    else .elem t a (wrapBodyList cs)

def wrapBodyList : List DNode → List DNode
  | [] => []
  | n :: ns => wrapBodyNode n :: wrapBodyList ns

end

mutual

/-- The `originalStyles.forEach(style => $wrapper.prepend(style))` loop
(sequential prepends put the clones in reverse order). -/
def prependWrapperNode (styles : List DNode) : DNode → DNode
  | .text v => .text v
  | .raw v => .raw v
  | .elem t a cs =>
    if t = "div" ∧ getAttr a "class" = some "website-translation-wrapper" then
      .elem t a (styles.foldl (fun acc s => s :: acc) cs)
    else .elem t a (prependWrapperList styles cs)

def prependWrapperList (styles : List DNode) : List DNode → List DNode
  | [] => []
  | n :: ns => prependWrapperNode styles n :: prependWrapperList styles ns

end

mutual

/-- `$('head').append(x)`. -/
def headAppendNode (x : DNode) : DNode → DNode
  | .text v => .text v
  | .raw v => .raw v
  | .elem t a cs =>
    if t = "head" then .elem t a (headAppendList x cs ++ [x])
    else .elem t a (headAppendList x cs)

def headAppendList (x : DNode) : List DNode → List DNode
  | [] => []
  | n :: ns => headAppendNode x n :: headAppendList x ns

end

mutual

/-- `$('head').prepend(xs)`. -/
def headPrependNode (xs : List DNode) : DNode → DNode
  | .text v => .text v
  | .raw v => .raw v
  | .elem t a cs =>
    if t = "head" then .elem t a (xs ++ headPrependList xs cs)
    else .elem t a (headPrependList xs cs)

def headPrependList (xs : List DNode) : List DNode → List DNode
  | [] => []
  | n :: ns => headPrependNode xs n :: headPrependList xs ns

end

/-- The `.website-translation-wrapper { all: inherit; display: contents; }`
style block appended to `<head>`. -/
def wrapperStyleNode : DNode :=
  .elem "style" []
    [.text ".website-translation-wrapper \x7b all: inherit; display: contents; \x7d"]

/-- The charset/base/viewport block prepended to `<head>`. -/
def metaNodes (baseHref : String) : List DNode :=
  [DNode.elem "meta" [("charset", "UTF-8")] [],
   DNode.elem "base" [("href", baseHref)] [],
   DNode.elem "meta"
     [("name", "viewport"), ("content", "width=device-width, initial-scale=1.0")] []]

/-! Pieces of the `GET /view/:domain/*` handler of `index.js` (lines
372–478). -/

mutual

/-- `$('base').remove()`. -/
def removeBaseNode : DNode → DNode
  | .text v => .text v
  | .raw v => .raw v
  | .elem t a cs => .elem t a (removeBaseList cs)

def removeBaseList : List DNode → List DNode
  | [] => []
  | .elem "base" _ _ :: ns => removeBaseList ns
  | n :: ns => removeBaseNode n :: removeBaseList ns

end

/-- Drop the first character, JS `s.substring(1)`. -/
def dropFirst (s : String) : String := String.mk (s.data.drop 1)

/-- The `[href]` relative-trimming of lines 409–414. -/
def hrefTrimVal (v : String) : String :=
  if v = "" then v
  else if (startsWithS v "http" || startsWithS v "//" || startsWithS v "mailto:" ||
      startsWithS v "#") = true then v
  else if startsWithS v "/" = true then dropFirst v
  else v

/-- The `[src]` relative-trimming of lines 416–421. -/
def srcTrimVal (v : String) : String :=
  if v = "" then v
  else if (startsWithS v "http" || startsWithS v "//") = true then v
  else if startsWithS v "/" = true then dropFirst v
  else v

/-- Character class of the regex `/url\(['"]?([^'"http)]+)['"]?\)/g` — note
the source pattern literally excludes the characters `h`, `t` and `p` from
the group. -/
def cssClassChar (c : Char) : Bool :=
  !(c = '\'' || c = '"' || c = 'h' || c = 't' || c = 'p' || c = ')')

/-- The replacement callback of lines 427–430 and 438–440. -/
def cssRepl (whole body : String) : String :=
  if startsWithS body "data:" = true then whole
  else "url('" ++ (if startsWithS body "/" = true then dropFirst body else body) ++ "')"

/-- Left-to-right global scan applying the `url(…)` regex replacement; fuel
is the input length (each step consumes at least one character). -/
def cssUrlScanF : Nat → List Char → List Char
  | 0, l => l
  | _ + 1, [] => []
  | fuel + 1, c :: rest =>
    if matchesAt ['u', 'r', 'l', '('] (c :: rest) then
      let after := rest.drop 3
      let q1 : List Char :=
        match after with
        | q :: _ => if q = '\'' ∨ q = '"' then [q] else []
        | [] => []
      let after1 := after.drop q1.length
      let body := after1.takeWhile cssClassChar
      let after2 := after1.drop body.length
      let q2 : List Char :=
        match after2 with
        | q :: _ => if q = '\'' ∨ q = '"' then [q] else []
        | [] => []
      match body, after2.drop q2.length with
      | _ :: _, ')' :: tail =>
        (cssRepl (String.mk (['u', 'r', 'l', '('] ++ q1 ++ body ++ q2 ++ [')']))
          (String.mk body)).data ++ cssUrlScanF fuel tail
      | _, _ => c :: cssUrlScanF fuel rest
    else c :: cssUrlScanF fuel rest

/-- One application of the css `url(…)` rewriting to a style string. -/
def cssUrlFix (s : String) : String := String.mk (cssUrlScanF s.data.length s.data)

mutual

/-- The `$('style').each(…)` css fixing of lines 436–443. -/
def styleTagFixNode : DNode → DNode
  | .text v => .text v
  | .raw v => .raw v
  | .elem t a cs =>
    if t = "style" then .elem t a [DNode.text (cssUrlFix (textContentList cs))]
    else .elem t a (styleTagFixList cs)

def styleTagFixList : List DNode → List DNode
  | [] => []
  | n :: ns => styleTagFixNode n :: styleTagFixList ns

end

/-! The five view-serving functions. -/

/-- Function `serveTranslatedWebsite` (lines 116–248; defined identically in
both files, and not routed by either). -/
def serveTranslatedWebsite (websites : String → Option Nat)
    (fetch : String → Option (List DNode))
    (tlookup : Nat → String → String → List TTuple)
    (domain pth language : String) : List String × HResp :=
  match websites domain with
  | none => ([], ⟨404, "Website not found"⟩)
  | some wid =>
    match fetch ("https://" ++ domain ++ pth) with
    | none => (["https://" ++ domain ++ pth], ⟨500, "Error loading translated website"⟩)
    | some doc =>
      let base : UrlT := ⟨"https:", domain, "/", ""⟩
      let translations := tlookup wid pth language
      let styles := collectStylesList doc
      let d1 := wrapBodyList doc
      let d2 := prependWrapperList styles d1
      let d3 := applyTranslations translations d2
      let d4 := mapAnchorHrefList (lrValServe domain language base) d3
      let d5 := headAppendList wrapperStyleNode d4
      let d6 := assetServeList base d5
      let d7 := headPrependList (metaNodes ("https://" ++ domain ++ "/")) d6
      (["https://" ++ domain ++ pth], ⟨200, renderList d7⟩)

/-- The routed `GET /view/:domain` handler of `index.js` (lines 251–364). -/
def viewRootIndex (websites : String → Option Nat)
    (fetch : String → Option (List DNode))
    (tlookup : Nat → String → String → List TTuple)
    (textLookup : String → String → String → Option String)
    (domain : String) (lp : Option String) : List String × HResp :=
  let language := langDefault lp
  match websites domain with
  | none => ([], ⟨404, "Website not found"⟩)
  | some wid =>
    match fetch ("https://" ++ domain) with
    | none => (["https://" ++ domain], ⟨500, "Error loading translated website"⟩)
    | some doc =>
      let base : UrlT := ⟨"https:", domain, "/", ""⟩
      let translations := tlookup wid "/" language
      let d1 := applyTranslations translations doc
      let d2 := mapAnchorHrefList (lrValRoot domain language base) d1
      match assetRootList base d2 with
      | .error e =>
        (["https://" ++ domain], ⟨500, "Error loading translated website: " ++ e⟩)
      | .ok d3 =>
        let d4 := rescanList (fun t => textLookup domain t language) d3
        (["https://" ++ domain], ⟨200, renderList d4⟩)

/-- The routed `GET /view/:domain` handler of `part_000` (lines 241–340):
like `viewRootIndex` but with no by-text re-scan step. -/
def viewRootPart (websites : String → Option Nat)
    (fetch : String → Option (List DNode))
    (tlookup : Nat → String → String → List TTuple)
    (domain : String) (lp : Option String) : List String × HResp :=
  let language := langDefault lp
  match websites domain with
  | none => ([], ⟨404, "Website not found"⟩)
  | some wid =>
    match fetch ("https://" ++ domain) with
    | none => (["https://" ++ domain], ⟨500, "Error loading translated website"⟩)
    | some doc =>
      let base : UrlT := ⟨"https:", domain, "/", ""⟩
      let translations := tlookup wid "/" language
      let d1 := applyTranslations translations doc
      let d2 := mapAnchorHrefList (lrValRoot domain language base) d1
      match assetRootList base d2 with
      | .error e =>
        (["https://" ++ domain], ⟨500, "Error loading translated website: " ++ e⟩)
      | .ok d3 => (["https://" ++ domain], ⟨200, renderList d3⟩)

/-- The routed `GET /view/:domain/*` handler of `part_000` (lines 342–442):
the root pipeline at path `/` ++ splat. -/
def viewSplatPart (websites : String → Option Nat)
    (fetch : String → Option (List DNode))
    (tlookup : Nat → String → String → List TTuple)
    (domain splat : String) (lp : Option String) : List String × HResp :=
  let language := langDefault lp
  match websites domain with
  | none => ([], ⟨404, "Website not found"⟩)
  | some wid =>
    match fetch ("https://" ++ domain ++ "/" ++ splat) with
    | none =>
      (["https://" ++ domain ++ "/" ++ splat], ⟨500, "Error loading translated website"⟩)
    | some doc =>
      let base : UrlT := ⟨"https:", domain, "/", ""⟩
      let translations := tlookup wid ("/" ++ splat) language
      let d1 := applyTranslations translations doc
      let d2 := mapAnchorHrefList (lrValRoot domain language base) d1
      match assetRootList base d2 with
      | .error e =>
        (["https://" ++ domain ++ "/" ++ splat],
          ⟨500, "Error loading translated website: " ++ e⟩)
      | .ok d3 => (["https://" ++ domain ++ "/" ++ splat], ⟨200, renderList d3⟩)

/-- The routed `GET /view/:domain/*` handler of `index.js` (lines 372–478):
an unknown domain *throws* (`throw new Error('Website not found: …')`),
landing in the catch that answers 500 — before any fetch. -/
def viewSplatIndex (websites : String → Option Nat)
    (fetch : String → Option (List DNode))
    (textLookup : String → String → String → Option String)
    (domain pathParam : String) (lp : Option String) : List String × HResp :=
  let lang := langDefault lp
  match websites domain with
  | none => ([], ⟨500, "Error: Website not found: " ++ domain⟩)
  | some _ =>
    let protocol := if hasSubS domain "localhost" then "http:" else "https:"
    match fetch (protocol ++ "//" ++ domain ++ "/" ++ pathParam) with
    | none =>
      ([protocol ++ "//" ++ domain ++ "/" ++ pathParam], ⟨500, "Error: upstream fetch failed"⟩)
    | some doc =>
      let d1 := removeBaseList doc
      let d2 := headPrependList
        [DNode.elem "base" [("href", protocol ++ "//" ++ domain ++ "/")] []] d1
      let d3 := mapAttrsList (fun _ a => updAttr "href" hrefTrimVal a) d2
      let d4 := mapAttrsList (fun _ a => updAttr "src" srcTrimVal a) d3
      let d5 := mapAttrsList (fun _ a => updAttr "style" cssUrlFix a) d4
      let d6 := styleTagFixList d5
      let d7 := txrList (fun t => textLookup domain t lang) d6
      ([protocol ++ "//" ++ domain ++ "/" ++ pathParam], ⟨200, renderList d7⟩)

/-- C3 fails as stated: on an unknown domain the `GET /view/:domain/*`
handler of `index.js` does return before any fetch, but it responds 500, not
404 (the `throw` lands in the generic catch). -/
theorem C3_counterexample :
    viewSplatIndex (fun _ => none) (fun _ => none) (fun _ _ _ => none)
        "example.com" "about" none
      = ([], ⟨500, "Error: Website not found: example.com"⟩) ∧
    (500 : Nat) ≠ 404 := by
  constructor
  · rfl
  · decide

/-- C3 amended: on a domain with no `websites` row, every view handler
returns without attempting any upstream fetch (the fetched-URL list is
empty); `serveTranslatedWebsite`, both root handlers and the `part_000` splat
handler respond 404, while the `index.js` splat handler responds 500. -/
theorem C3_amended_short_circuit (websites : String → Option Nat)
    (fetch : String → Option (List DNode))
    (tlookup : Nat → String → String → List TTuple)
    (textLookup : String → String → String → Option String)
    (domain pth language : String) (lp : Option String)
    (h : websites domain = none) :
    serveTranslatedWebsite websites fetch tlookup domain pth language
      = ([], ⟨404, "Website not found"⟩) ∧
    viewRootIndex websites fetch tlookup textLookup domain lp
      = ([], ⟨404, "Website not found"⟩) ∧
    viewRootPart websites fetch tlookup domain lp
      = ([], ⟨404, "Website not found"⟩) ∧
    viewSplatPart websites fetch tlookup domain pth lp
      = ([], ⟨404, "Website not found"⟩) ∧
    viewSplatIndex websites fetch textLookup domain pth lp
      = ([], ⟨500, "Error: Website not found: " ++ domain⟩) := by
  refine ⟨?_, ?_, ?_, ?_, ?_⟩ <;>
    simp [serveTranslatedWebsite, viewRootIndex, viewRootPart, viewSplatPart,
      viewSplatIndex, h]

/-- Witness for the amended C3 on concrete oracles and domain. -/
theorem C3_witness :
    ((fun (_ : String) => (none : Option Nat)) "nosuch.example" = none) ∧
    (serveTranslatedWebsite (fun _ => none) (fun _ => none) (fun _ _ _ => [])
        "nosuch.example" "/" "es" = ([], ⟨404, "Website not found"⟩) ∧
      viewRootIndex (fun _ => none) (fun _ => none) (fun _ _ _ => []) (fun _ _ _ => none)
        "nosuch.example" (some "es") = ([], ⟨404, "Website not found"⟩) ∧
      viewRootPart (fun _ => none) (fun _ => none) (fun _ _ _ => [])
        "nosuch.example" (some "es") = ([], ⟨404, "Website not found"⟩) ∧
      viewSplatPart (fun _ => none) (fun _ => none) (fun _ _ _ => [])
        "nosuch.example" "/" (some "es") = ([], ⟨404, "Website not found"⟩) ∧
      viewSplatIndex (fun _ => none) (fun _ => none) (fun _ _ _ => none)
        "nosuch.example" "/" (some "es")
        = ([], ⟨500, "Error: Website not found: " ++ "nosuch.example"⟩)) :=
  ⟨rfl, C3_amended_short_circuit (fun _ => none) (fun _ => none) (fun _ _ _ => [])
    (fun _ _ _ => none) "nosuch.example" "/" "es" (some "es") rfl⟩

/-- C10: a `GET /view` request that omits the `lang` query parameter behaves
exactly as one with `lang=en` in every routed handler (in particular the
translations lookup runs with language `en`), and every rewritten internal
hyperlink of the root handlers carries `?lang=en`: a non-empty href resolving
to the site's hostname is rewritten to
`/view/<domain><pathname><search>?lang=en`. -/
theorem C10_lang_defaults_en (websites : String → Option Nat)
    (fetch : String → Option (List DNode))
    (tlookup : Nat → String → String → List TTuple)
    (textLookup : String → String → String → Option String)
    (domain pathParam : String) :
    langDefault none = "en" ∧
    viewRootIndex websites fetch tlookup textLookup domain none
      = viewRootIndex websites fetch tlookup textLookup domain (some "en") ∧
    viewRootPart websites fetch tlookup domain none
      = viewRootPart websites fetch tlookup domain (some "en") ∧
    viewSplatPart websites fetch tlookup domain pathParam none
      = viewSplatPart websites fetch tlookup domain pathParam (some "en") ∧
    viewSplatIndex websites fetch textLookup domain pathParam none
      = viewSplatIndex websites fetch textLookup domain pathParam (some "en") ∧
    ∀ (base : UrlT) (href : String) (u : UrlT), href ≠ "" →
      resolveUrl href base = some u → u.hostname = domain →
      lrValRoot domain (langDefault none) base href = viewLink domain "en" u ∧
      endsWithS (viewLink domain "en" u) "?lang=en" = true := by
  refine ⟨rfl, rfl, rfl, rfl, rfl, ?_⟩
  intro base href u hne hres hh
  constructor
  · rw [lrValRoot, if_neg hne, hres]
    exact if_pos hh
  · rw [endsWithS, viewLink]
    simp only [dataAppend, List.reverse_append,
      show ("?lang=en" : String).data = ['?', 'l', 'a', 'n', 'g', '=', 'e', 'n'] from rfl,
      show ("?lang=" : String).data = ['?', 'l', 'a', 'n', 'g', '='] from rfl,
      show ("en" : String).data = ['e', 'n'] from rfl]
    simp [matchesAt, matchesAt_nil]

/-- Demo oracles for the C10 witness. -/
def demoWebsites : String → Option Nat := fun d => if d = "example.com" then some 1 else none

/-- Demo fetch oracle returning a fixed small page. -/
def demoFetch : String → Option (List DNode) :=
  fun _ => some [DNode.elem "p" [] [DNode.text "Hello"]]

/-- Witness for C10 at concrete oracles, domain and link. -/
theorem C10_witness :
    (viewRootIndex demoWebsites demoFetch (fun _ _ _ => []) (fun _ _ _ => none)
        "example.com" none
      = viewRootIndex demoWebsites demoFetch (fun _ _ _ => []) (fun _ _ _ => none)
        "example.com" (some "en")) ∧
    ("/contact" ≠ "" ∧
      resolveUrl "/contact" demoBase = some ⟨"https:", "example.com", "/contact", ""⟩ ∧
      (⟨"https:", "example.com", "/contact", ""⟩ : UrlT).hostname = "example.com") ∧
    (lrValRoot "example.com" (langDefault none) demoBase "/contact"
        = viewLink "example.com" "en" ⟨"https:", "example.com", "/contact", ""⟩ ∧
      endsWithS (viewLink "example.com" "en" ⟨"https:", "example.com", "/contact", ""⟩)
        "?lang=en" = true) :=
  ⟨(C10_lang_defaults_en demoWebsites demoFetch (fun _ _ _ => []) (fun _ _ _ => none)
      "example.com" "about").2.1,
    ⟨by decide, by decide, by decide⟩,
    (C10_lang_defaults_en demoWebsites demoFetch (fun _ _ _ => []) (fun _ _ _ => none)
      "example.com" "about").2.2.2.2.2 demoBase "/contact"
      ⟨"https:", "example.com", "/contact", ""⟩ (by decide) (by decide) (by decide)⟩

/-! ## Idempotence of the asset rewriting (both sites) -/

theorem getAttr_updAttr_self (k : String) (f : String → String)
    (a : List (String × String)) :
    getAttr (updAttr k f a) k = (getAttr a k).map f := by
  induction a with
  | nil => rfl
  | cons p r ih =>
    obtain ⟨k', v⟩ := p
    show getAttr ((if k' = k then (k', f v) else (k', v)) :: updAttr k f r) k
        = (getAttr ((k', v) :: r) k).map f
    by_cases h : k' = k
    · rw [if_pos h, getAttr, if_pos h, getAttr, if_pos h]
      rfl
    · rw [if_neg h, getAttr, if_neg h, getAttr, if_neg h]
      exact ih

theorem getAttr_updAttr_ne (k k2 : String) (hk : k ≠ k2) (f : String → String)
    (a : List (String × String)) :
    getAttr (updAttr k f a) k2 = getAttr a k2 := by
  induction a with
  | nil => rfl
  | cons p r ih =>
    obtain ⟨k', v⟩ := p
    show getAttr ((if k' = k then (k', f v) else (k', v)) :: updAttr k f r) k2
        = getAttr ((k', v) :: r) k2
    by_cases h : k' = k
    · have h2 : ¬k' = k2 := fun hh2 => hk (h.symm.trans hh2)
      rw [if_pos h, getAttr, if_neg h2, getAttr, if_neg h2]
      exact ih
    · rw [if_neg h, getAttr, getAttr]
      by_cases h2 : k' = k2
      · rw [if_pos h2, if_pos h2]
      · rw [if_neg h2, if_neg h2]
        exact ih

theorem updAttr_const_idem (k c : String) (a : List (String × String)) :
    updAttr k (fun _ => c) (updAttr k (fun _ => c) a) = updAttr k (fun _ => c) a := by
  induction a with
  | nil => rfl
  | cons p r ih =>
    obtain ⟨k', v⟩ := p
    by_cases h : k' = k
    · have h1 : updAttr k (fun _ => c) ((k', v) :: r)
          = (k', c) :: updAttr k (fun _ => c) r := by
        show (if k' = k then (k', c) else (k', v)) :: updAttr k (fun _ => c) r
          = (k', c) :: updAttr k (fun _ => c) r
        rw [if_pos h]
      have h2 : updAttr k (fun _ => c) ((k', c) :: updAttr k (fun _ => c) r)
          = (k', c) :: updAttr k (fun _ => c) (updAttr k (fun _ => c) r) := by
        show (if k' = k then (k', c) else (k', c))
            :: updAttr k (fun _ => c) (updAttr k (fun _ => c) r)
          = (k', c) :: updAttr k (fun _ => c) (updAttr k (fun _ => c) r)
        rw [if_pos h]
      rw [h1, h2, ih]
    · have h1 : updAttr k (fun _ => c) ((k', v) :: r)
          = (k', v) :: updAttr k (fun _ => c) r := by
        show (if k' = k then (k', c) else (k', v)) :: updAttr k (fun _ => c) r
          = (k', v) :: updAttr k (fun _ => c) r
        rw [if_neg h]
      have h2 : updAttr k (fun _ => c) ((k', v) :: updAttr k (fun _ => c) r)
          = (k', v) :: updAttr k (fun _ => c) (updAttr k (fun _ => c) r) := by
        show (if k' = k then (k', c) else (k', v))
            :: updAttr k (fun _ => c) (updAttr k (fun _ => c) r)
          = (k', v) :: updAttr k (fun _ => c) (updAttr k (fun _ => c) r)
        rw [if_neg h]
      rw [h1, h2, ih]

/-- A URL produced by a successful resolution never serialises to the empty
string. -/
theorem urlHref_resolved_ne (v : String) (base : UrlT) (u : UrlT)
    (hh : base.hostname ≠ "") (h : resolveUrl v base = some u) :
    urlHref u ≠ "" := by
  by_cases hu : u.hostname = ""
  · obtain ⟨scheme, rest, hsch, hns, hequ⟩ := resolveUrl_opaque_shape v base u h hu hh
    subst hequ
    rw [urlHref, if_pos rfl]
    intro he
    rw [String.ext_iff] at he
    simp [dataAppend, show (":" : String).data = [':'] from rfl,
      show ("" : String).data = [] from rfl] at he
  · rw [urlHref, if_neg hu]
    intro he
    rw [String.ext_iff] at he
    simp [dataAppend, show ("//" : String).data = ['/', '/'] from rfl,
      show ("" : String).data = [] from rfl] at he

/-- A resolved URL with a host serialises to something starting with `http`
whenever the base is `http(s)`. -/
theorem resolved_host_http (v : String) (base : UrlT) (u : UrlT)
    (hb : base.protocol = "https:" ∨ base.protocol = "http:")
    (h : resolveUrl v base = some u) (hu : u.hostname ≠ "") :
    startsWithS (urlHref u) "http" = true := by
  have hp : u.protocol = "http:" ∨ u.protocol = "https:" := by
    rcases resolveUrl_protocol v base u h with h1 | h1 | h1 | h1
    · rw [h1]
      tauto
    · exact Or.inl h1
    · exact Or.inr h1
    · exact absurd h1 hu
  exact startsWith_http_of_protocol u hp hu

/-- One-element idempotence of the root-handler asset rewrite: an attribute
list the pass has produced is reproduced unchanged by a second pass. -/
theorem assetRootAttrs_idem (base : UrlT)
    (hb : base.protocol = "https:" ∨ base.protocol = "http:")
    (hh : base.hostname ≠ "") (a a' : List (String × String))
    (h : assetRootAttrs base a = .ok a') :
    assetRootAttrs base a' = .ok a' := by
  rcases hj : jsOrAttr (getAttr a "src") (getAttr a "href") with _ | v
  · simp only [assetRootAttrs, hj] at h
    injection h with h
    subst h
    simp only [assetRootAttrs, hj]
  · simp only [assetRootAttrs, hj] at h
    by_cases h0 : v = ""
    · rw [if_pos h0] at h
      injection h with h
      subst h
      simp only [assetRootAttrs, hj]
      rw [if_pos h0]
    · rw [if_neg h0] at h
      by_cases hhttp : startsWithS v "http" = true
      · rw [if_pos hhttp] at h
        injection h with h
        subst h
        simp only [assetRootAttrs, hj]
        rw [if_neg h0, if_pos hhttp]
      · rw [if_neg hhttp] at h
        rcases hres : resolveUrl v base with _ | u
        · simp only [hres] at h
          exact Except.noConfusion h
        · simp only [hres] at h
          injection h with h
          have hne := urlHref_resolved_ne v base u hh hres
          by_cases hsrc : attrTruthy a "src" = true
          · rw [if_pos hsrc] at h
            subst h
            rcases hga : getAttr a "src" with _ | s
            · simp only [attrTruthy, hga] at hsrc
              exact Bool.noConfusion hsrc
            · have hga' : getAttr (updAttr "src" (fun _ => urlHref u) a) "src"
                  = some (urlHref u) := by
                rw [getAttr_updAttr_self, hga]
                rfl
              have hj' : jsOrAttr (getAttr (updAttr "src" (fun _ => urlHref u) a) "src")
                  (getAttr (updAttr "src" (fun _ => urlHref u) a) "href")
                  = some (urlHref u) := by
                rw [hga']
                simp only [jsOrAttr]
                rw [if_neg hne]
              have ht : attrTruthy (updAttr "src" (fun _ => urlHref u) a) "src" = true := by
                simp only [attrTruthy, hga']
                simp [hne]
              simp only [assetRootAttrs, hj']
              rw [if_neg hne]
              by_cases hhttp2 : startsWithS (urlHref u) "http" = true
              · rw [if_pos hhttp2]
              · rw [if_neg hhttp2]
                by_cases hu : u.hostname = ""
                · simp only [ resolveUrl_roundtrip_opaque v base u hres hu hh]
                  rw [if_pos ht, updAttr_const_idem]
                · exact absurd (resolved_host_http v base u hb hres hu) hhttp2
          · rw [if_neg hsrc] at h
            subst h
            have hfalsy : getAttr a "src" = none ∨ getAttr a "src" = some "" := by
              rcases hga : getAttr a "src" with _ | s
              · exact Or.inl rfl
              · right
                have hs : s = "" := by
                  by_contra hs
                  refine hsrc ?_
                  simp only [attrTruthy, hga]
                  simp [hs]
                rw [hs]
            have hgh : getAttr a "href" = some v := by
              rcases hfalsy with hga | hga <;> rw [hga] at hj <;>
                simp only [jsOrAttr] at hj
              · exact hj
              · rw [if_true] at hj
                exact hj
            have f1 : getAttr (updAttr "href" (fun _ => urlHref u) a) "src"
                = getAttr a "src" :=
              getAttr_updAttr_ne "href" "src" (by decide) _ a
            have f2 : getAttr (updAttr "href" (fun _ => urlHref u) a) "href"
                = some (urlHref u) := by
              rw [getAttr_updAttr_self, hgh]
              rfl
            have hj' : jsOrAttr (getAttr (updAttr "href" (fun _ => urlHref u) a) "src")
                (getAttr (updAttr "href" (fun _ => urlHref u) a) "href")
                = some (urlHref u) := by
              rw [f1, f2]
              rcases hfalsy with hga | hga <;> rw [hga] <;> simp only [jsOrAttr]
              rw [if_true]
            have ht' : attrTruthy (updAttr "href" (fun _ => urlHref u) a) "src"
                = false := by
              rcases hfalsy with hga | hga <;> simp only [attrTruthy, f1, hga]
              rfl
            simp only [assetRootAttrs, hj']
            rw [if_neg hne]
            by_cases hhttp2 : startsWithS (urlHref u) "http" = true
            · rw [if_pos hhttp2]
            · rw [if_neg hhttp2]
              by_cases hu : u.hostname = ""
              · simp only [ resolveUrl_roundtrip_opaque v base u hres hu hh]
                rw [if_neg (by simp [ht']), updAttr_const_idem]
              · exact absurd (resolved_host_http v base u hb hres hu) hhttp2

mutual

theorem assetRootNode_idem (base : UrlT)
    (hb : base.protocol = "https:" ∨ base.protocol = "http:")
    (hh : base.hostname ≠ "") :
    ∀ n n', assetRootNode base n = .ok n' → assetRootNode base n' = .ok n'
  | .text v, n', h => by
    rw [assetRootNode] at h
    injection h with h
    subst h
    rw [assetRootNode]
  | .raw v, n', h => by
    rw [assetRootNode] at h
    injection h with h
    subst h
    rw [assetRootNode]
  | .elem t a cs, n', h => by
    rw [assetRootNode] at h
    rcases hA : (if t ∈ assetRootTags then assetRootAttrs base a else Except.ok a)
        with e | a'
    · simp only [hA] at h
      exact Except.noConfusion h
    · simp only [hA] at h
      rcases hC : assetRootList base cs with e | cs'
      · simp only [hC] at h
        exact Except.noConfusion h
      · simp only [hC] at h
        injection h with h
        subst h
        have hA' : (if t ∈ assetRootTags then assetRootAttrs base a'
            else Except.ok a') = .ok a' := by
          by_cases ht : t ∈ assetRootTags
          · rw [if_pos ht]
            rw [if_pos ht] at hA
            exact assetRootAttrs_idem base hb hh a a' hA
          · rw [if_neg ht]
        rw [assetRootNode]
        simp only [hA', assetRootList_idem base hb hh cs cs' hC]

theorem assetRootList_idem (base : UrlT)
    (hb : base.protocol = "https:" ∨ base.protocol = "http:")
    (hh : base.hostname ≠ "") :
    ∀ ns ns', assetRootList base ns = .ok ns' → assetRootList base ns' = .ok ns'
  | [], ns', h => by
    rw [assetRootList] at h
    injection h with h
    subst h
    rw [assetRootList]
  | n :: ns, l', h => by
    rw [assetRootList] at h
    rcases hN : assetRootNode base n with e | n₁
    · simp only [hN] at h
      exact Except.noConfusion h
    · simp only [hN] at h
      rcases hL : assetRootList base ns with e | ns₁
      · simp only [hL] at h
        exact Except.noConfusion h
      · simp only [hL] at h
        injection h with h
        subst h
        rw [assetRootList]
        simp only [assetRootNode_idem base hb hh n n₁ hN,
          assetRootList_idem base hb hh ns ns₁ hL]

end

end WT
